import Mathlib

/-!
Verification of the pdf-parser per-page pipeline (src/src/pdf_to_markdown.py,
src/src/image_extractor.py, src/src/config.py).

Shallow embedding conventions:
* Text is modelled as `List Char` (Python `str`).
* The external collaborators (pdf2image rasterizer, PyMuPDF extraction,
  Bedrock inference, clocks) are oracles passed in as function arguments.
* Side effects (rasterising a page, writing an extracted image, an inference
  attempt, `time.sleep`, writing the header, appending a section) are recorded
  as an explicit event trace.
* The regular expression used by `_replace_image_placeholders_single_page`,
  namely  `!\[([^\]]*)\]\(IMAGE_PLACEHOLDER\)(?:\s*<!--\s*(.*?)\s*-->)?` ,
  is hand-compiled into a deterministic character-level matcher (`matchAt` /
  `searchFrom`) that reproduces Python's leftmost search, greedy `[^\]]*`
  and `\s*`, and lazy `(.*?)` (which does not match a newline).
-/

/-! ## Basic character and string utilities -/

/-- ASCII whitespace as matched by Python's `\s` and stripped by `str.strip()`
(the source only ever handles ASCII metacharacters around the placeholder). -/
def isWs (c : Char) : Bool :=
  c = ' ' || c = '\t' || c = '\n' || c = '\r' || c = '\x0b' || c = '\x0c'

/-- Decimal rendering of a natural number, as Python's `str`/`f"{n}"`. -/
def natChars (n : Nat) : List Char := Nat.toDigits 10 n

/-- Decimal rendering of an integer, as Python's `f"{i}"`. -/
def intChars (i : Int) : List Char :=
  if i < 0 then '-' :: natChars i.natAbs else natChars i.toNat

/-- Python `f"{n:03d}"` for a natural number. -/
def pad3 (n : Nat) : List Char :=
  List.replicate (3 - (natChars n).length) '0' ++ natChars n

/-- Python `f"{n:04d}"` for a natural number. -/
def pad4 (n : Nat) : List Char :=
  List.replicate (4 - (natChars n).length) '0' ++ natChars n

/-- Python `f"{size/1024:.1f}"` for a byte count.  `size/1024` is exactly
representable as a binary float (1024 is a power of two), and `%.1f`
rounds the exact value to one decimal with ties to even, which is what
this integer computation performs. -/
def fmtKB (size : Nat) : List Char :=
  let n := size * 10
  let q := n / 1024
  let r := n % 1024
  let rounded := if 512 < r ∨ (r = 512 ∧ q % 2 = 1) then q + 1 else q
  natChars (rounded / 10) ++ '.' :: natChars (rounded % 10)

/-- Python `str.strip()` (restricted to ASCII whitespace). -/
def stripWs (cs : List Char) : List Char :=
  ((cs.dropWhile fun c => isWs c).reverse.dropWhile fun c => isWs c).reverse

/-- Remove `pat` from the front of `s`; `none` if `s` does not start with it. -/
def dropPrefixQ : List Char → List Char → Option (List Char)
  | [], s => some s
  | _ :: _, [] => none
  | p :: ps, c :: cs => if c = p then dropPrefixQ ps cs else none

/-- Split at the first `']'`:  `splitAtRB (a ++ ']' :: r) = some (a, r)` when
`a` contains no `']'`.  This is the greedy `[^\]]*\]` of the source pattern. -/
def splitAtRB : List Char → Option (List Char × List Char)
  | [] => none
  | c :: cs =>
    if c = ']' then some ([], cs)
    else (splitAtRB cs).map fun pr => (c :: pr.1, pr.2)

/-- Maximal whitespace prefix and the remainder (the greedy `\s*`). -/
def wsSplit : List Char → List Char × List Char
  | [] => ([], [])
  | c :: cs =>
    if isWs c then
      let r := wsSplit (cs)
      (c :: r.1, r.2)
    else ([], c :: cs)

/-- The lazy `(.*?)\s*-->` tail of the comment group: find the shortest
newline-free prefix after which (skipping whitespace) the literal `-->`
follows.  Returns `(captured content, raw consumed text, rest)`. -/
def scanContent : List Char → Option (List Char × List Char × List Char)
  | [] => none
  | c :: t =>
    let w := wsSplit (c :: t)
    match dropPrefixQ "-->".toList w.2 with
    | some rest => some ([], w.1 ++ "-->".toList, rest)
    | none =>
      if c = '\n' then none
      else (scanContent t).map fun pr => (c :: pr.1, c :: pr.2.1, pr.2.2)

/-- The optional comment group `\s*<!--\s*(.*?)\s*-->` of the source pattern.
Returns `(captured group 2, raw consumed text, rest)`. -/
def probeComment (cs : List Char) : Option (List Char × List Char × List Char) :=
  let w1 := wsSplit cs
  match dropPrefixQ "<!--".toList w1.2 with
  | none => none
  | some r2 =>
    let w2 := wsSplit r2
    match scanContent w2.2 with
    | none => none
    | some pr => some (pr.1, w1.1 ++ "<!--".toList ++ w2.1 ++ pr.2.1, pr.2.2)

/-- The literal generic marker emitted by the model for visual elements. -/
def marker : List Char := "IMAGE_PLACEHOLDER".toList

/-- Rendering of an unresolved placeholder image link with alt text `alt`. -/
def phText (alt : List Char) : List Char :=
  "![".toList ++ alt ++ "](IMAGE_PLACEHOLDER)".toList

/-- Result of matching the placeholder pattern at one position: the alt text
(group 1), the optional comment body (group 2), the full matched text
(group 0) and the remainder of the string after the match. -/
structure MatchRes where
  alt : List Char
  comment : Option (List Char)
  group0 : List Char
  rest : List Char
deriving Repr, DecidableEq

/-- Match the source pattern anchored at the head of `cs`. -/
def matchAt (cs : List Char) : Option MatchRes :=
  match dropPrefixQ "![".toList cs with
  | none => none
  | some r1 =>
    match splitAtRB r1 with
    | none => none
    | some (alt, r2) =>
      match dropPrefixQ "(IMAGE_PLACEHOLDER)".toList r2 with
      | none => none
      | some r3 =>
        match probeComment r3 with
        | some pr => some ⟨alt, some pr.1, phText alt ++ pr.2.1, pr.2.2⟩
        | none => some ⟨alt, none, phText alt, r3⟩

/-- Python `re.search`: the match at the leftmost position where one exists. -/
def searchFrom : List Char → Option MatchRes
  | [] => none
  | c :: cs =>
    match matchAt (c :: cs) with
    | some m => some m
    | none => searchFrom cs

/-- Python `s.replace(old, new, 1)`: replace the first occurrence only. -/
def replaceOnce : List Char → List Char → List Char → List Char
  | [], _, _ => []
  | c :: cs, old, new =>
    match dropPrefixQ old (c :: cs) with
    | some rest => new ++ rest
    | none => c :: replaceOnce cs old new

/-! ## Configuration (src/src/config.py) -/

namespace Config

def SAVE_PAGE_IMAGES : Bool := true

def EXTRACT_EMBEDDED_IMAGES : Bool := true

def MIN_IMAGE_WIDTH : Nat := 100

def MIN_IMAGE_HEIGHT : Nat := 100

def IMAGES_SUBDIR : List Char := "images".toList

def SAVE_IMAGE_METADATA_JSON : Bool := true

end Config

/-- `max_retries = 3` from `convert_pdf_to_markdown`. -/
def max_retries : Nat := 3

/-- `retry_delay = 2` (seconds) from `convert_pdf_to_markdown`. -/
def retry_delay : Nat := 2

/-! ## Image extraction (src/src/image_extractor.py, extract_images_from_page) -/

/-- Outcome of PyMuPDF extraction of one entry of `page.get_images()`:
an exception inside the per-image `try` block, a falsy `base_image`,
or a successful extraction with byte size, format extension and pixel
dimensions. -/
inductive ExtractRes where
  | failed (msg : List Char)
  | noBase
  | ok (size : Nat) (ext : List Char) (width : Nat) (height : Nat)

/-- Metadata dictionary appended for each kept image. -/
structure ImgMeta where
  filename : List Char
  path : List Char
  width : Nat
  height : Nat
  size : Nat
  format : List Char
  page_num : Nat
  index : Nat
deriving Repr, DecidableEq

/-- Trace of the observable side effects of one run. -/
inductive Event where
  | raster (page : Nat)
  | pageCopy (page : Nat)
  | extractCall (page : Nat)
  | imgWrite (page : Nat) (filename : List Char) (width height : Nat)
  | inferAttempt (page : Nat) (attempt : Nat)
  | sleep (secs : Nat)
  | headerWrite
  | sectionAppend (idx : Nat)
deriving Repr, DecidableEq

/-- The `for img_index, img in enumerate(image_list, 1)` loop of
`extract_images_from_page`: per-image failures are skipped (`continue`),
images below the minimum size are filtered, kept images are written to
disk and their metadata recorded. -/
def extractGo (page_num : Nat) (output_dir : List Char) (min_width min_height : Nat) :
    List ExtractRes → Nat → List ImgMeta × List Event
  | [], _ => ([], [])
  | r :: rs, i =>
    let rest := extractGo page_num output_dir min_width min_height rs (i + 1)
    match r with
    | .failed _ => rest
    | .noBase => rest
    | .ok size ext width height =>
      if width < min_width ∨ height < min_height then rest
      else
        let image_filename :=
          "page_".toList ++ pad3 page_num ++ "_img_".toList ++ pad3 i ++ ".".toList ++ ext
        (⟨image_filename, output_dir ++ "/".toList ++ image_filename,
          width, height, size, ext, page_num, i⟩ :: rest.1,
         Event.imgWrite page_num image_filename width height :: rest.2)

/-- `ImageExtractor.extract_images_from_page`: page-bound check, then the
per-image loop.  `oracle page_num` is the list of `page.get_images()`
entries together with the outcome of extracting each. -/
def extract_images_from_page (docPageCount : Nat) (oracle : Nat → List ExtractRes)
    (page_num : Nat) (output_dir : List Char) (min_width min_height : Nat) :
    Except (List Char) (List ImgMeta × List Event) :=
  if page_num < 1 ∨ docPageCount < page_num then
    .error ("Invalid page number: ".toList ++ natChars page_num)
  else
    .ok (extractGo page_num output_dir min_width min_height (oracle page_num) 1)

/-! ## Placeholder reconciliation
(src/src/pdf_to_markdown.py, _replace_image_placeholders_single_page) -/

/-- The `metadata_text` built for a matched pair (lines 517-521). -/
def metadataText (m : ImgMeta) (page_num : Nat) : List Char :=
  "File: ".toList ++ m.filename ++
  " | Dimensions: ".toList ++ natChars m.width ++ "x".toList ++ natChars m.height ++
  "px | Size: ".toList ++ fmtKB m.size ++
  "KB | Format: ".toList ++ m.format ++
  " | Page: ".toList ++ natChars page_num

/-- `img_rel_path = f"{images_dirname}/{img_meta['filename']}"`. -/
def relPath (dirname : List Char) (m : ImgMeta) : List Char :=
  dirname ++ "/".toList ++ m.filename

/-- The `replacement` string built for a found match (lines 523-531):
the rebuilt image link plus the metadata comment, appended to the
model-authored comment when one was captured. -/
def mkReplacement (r : MatchRes) (m : ImgMeta) (page_num : Nat) (dirname : List Char) :
    List Char :=
  let link := "![".toList ++ r.alt ++ "](".toList ++ relPath dirname m ++ ")".toList
  match r.comment with
  | some c =>
    link ++ "\n<!-- ".toList ++ c ++ "\n".toList ++ metadataText m page_num ++ " -->".toList
  | none => link ++ "\n<!-- ".toList ++ metadataText m page_num ++ " -->".toList

/-- One iteration of the `for img_meta in extracted_images` loop: search for
the next placeholder; on a match replace the matched text (first occurrence)
with the enriched link, otherwise fall back to a literal first-occurrence
replacement of `IMAGE_PLACEHOLDER`. -/
def replaceStep (page_num : Nat) (dirname : List Char) (md : List Char) (m : ImgMeta) :
    List Char :=
  match searchFrom md with
  | some r => replaceOnce md r.group0 (mkReplacement r m page_num dirname)
  | none => replaceOnce md marker (relPath dirname m)

/-- `_replace_image_placeholders_single_page`. -/
def replace_image_placeholders_single_page (page_markdown : List Char)
    (extracted_images : List ImgMeta) (page_num : Nat)
    (images_dirname : Option (List Char)) : List Char :=
  match images_dirname with
  | none => page_markdown
  | some dn =>
    if extracted_images.isEmpty then page_markdown
    else extracted_images.foldl (replaceStep page_num dn) page_markdown

/-- Rendering of a model-authored description comment following a placeholder. -/
def commentRaw (c : List Char) : List Char :=
  "\n<!-- ".toList ++ c ++ " -->".toList

/-- Rendering of an optional model-authored description comment. -/
def commentRawOpt : Option (List Char) → List Char
  | none => []
  | some c => commentRaw c

/-- The leading part of the rewritten annotation body: the preserved
model-authored comment (when present) followed by a newline. -/
def commentLead : Option (List Char) → List Char
  | none => []
  | some c => c ++ "\n".toList

/-- Well-formedness of the optional comment relative to the following text:
with no comment, the following text must not open an HTML comment; a present
comment must be non-empty, not start with whitespace, and be captured whole
by the lazy content scan (it contains no newline and no early closing
arrow). -/
def CommentOk : Option (List Char) → List Char → Prop
  | none, post => '<' ∉ post
  | some c, _ => c ≠ [] ∧ isWs c.headI = false ∧
      scanContent (c ++ " -->".toList) = some (c, c ++ " -->".toList, [])

/-! ## Output assembly (_write_markdown_header, _append_markdown_page) -/

/-- The header written by `_write_markdown_header` (truncating write). -/
def mkMarkdownHeader (document_name now : List Char) (total_pages : Nat) : List Char :=
  "# ".toList ++ document_name ++
  "\n\n*Converted from PDF using Zerox OCR approach with Amazon Bedrock Claude Sonnet 4.5*\n\n*Conversion date: ".toList ++
  now ++ "*\n\n*Total pages: ".toList ++ natChars total_pages ++ "*\n\n---\n\n".toList

/-- The section appended by `_append_markdown_page`. -/
def mkSection (page_num : Nat) (page_markdown : List Char) : List Char :=
  "## Page ".toList ++ natChars page_num ++ "\n\n".toList ++
  stripWs page_markdown ++ "\n\n---\n\n".toList

/-! ## Page rasterization (pdf_to_images) -/

/-- `pdf_to_images`: resolve range defaults, validate, then rasterize the
pages one at a time.  Returns the list of 1-indexed page numbers rasterized
(each identifying its temporary image file) and the raster trace.  The two
`ValueError`s carry the source's messages. -/
def pdf_to_images (totalPages : Nat) (first? last? : Option Int) :
    Except (List Char) (List Nat × List Event) :=
  let f : Int := first?.getD 1
  let l : Int := last?.getD totalPages
  if f < 1 ∨ f > totalPages then
    .error ("first_page ".toList ++ intChars f ++ " is out of range (1-".toList ++
      natChars totalPages ++ ")".toList)
  else if l < f ∨ l > totalPages then
    .error ("last_page ".toList ++ intChars l ++ " is out of range (".toList ++
      intChars f ++ "-".toList ++ natChars totalPages ++ ")".toList)
  else
    let pages := (List.range (l + 1 - f).toNat).map fun i => f.toNat + i
    .ok (pages, pages.map Event.raster)

/-! ## The full conversion run (convert_pdf_to_markdown) -/

/-- Record of one failed page appended to `failed_pages` (lines 248-252).
Note the source stores the enumeration index `idx`, not the document page
number. -/
structure FailRec where
  page_num : Nat
  image_path : List Char
  error : List Char
deriving Repr, DecidableEq

/-- The image-metadata ledger written by `_save_image_metadata`. -/
structure MetaLedger where
  document : List Char
  conversion_date : List Char
  total_pages : Nat
  total_images : Nat
  images : List ImgMeta
deriving Repr, DecidableEq

/-- `_save_image_metadata`: flatten the per-page dictionary (in insertion
order) and record the document-level summary counts. -/
def save_image_metadata (document_name nowIso : List Char)
    (extracted_images : List (Nat × List ImgMeta)) : MetaLedger :=
  let all_images := (extracted_images.map fun pr => pr.2).flatten
  ⟨document_name, nowIso, extracted_images.length, all_images.length, all_images⟩

/-- Inputs of one `convert_pdf_to_markdown` call.  Library collaborators and
clocks are oracles.  The prior content of the output file (relevant for the
truncation behaviour of the header write) is a separate argument of the run. -/
structure ConvArgs where
  pdfExists : Bool
  pdfStem : List Char
  totalPages : Nat
  now : List Char
  nowIso : List Char
  tempDir : List Char
  outputGiven : Bool
  outStem : List Char
  outParent : List Char
  first? : Option Int
  last? : Option Int
  extractOracle : Nat → List ExtractRes
  inferOracle : Nat → Nat → Except (List Char) (List Char)

/-- `f"{doc_name}_{Config.IMAGES_SUBDIR}"` — the name of the images directory. -/
def imagesDirName (A : ConvArgs) : List Char :=
  A.outStem ++ "_".toList ++ Config.IMAGES_SUBDIR

/-- Absolute path of the images directory. -/
def imagesDirPath (A : ConvArgs) : List Char :=
  A.outParent ++ "/".toList ++ imagesDirName A

/-- `images_dir` is created iff an output path was given and a save/extract
feature is on (line 158). -/
def imagesDirPresent (A : ConvArgs) : Bool :=
  A.outputGiven && (Config.SAVE_PAGE_IMAGES || Config.EXTRACT_EMBEDDED_IMAGES)

/-- Temporary raster image path for a page,
`f"page_(page_num):04d.(fmt)"` under the temp directory. -/
def pagePath (A : ConvArgs) (page : Nat) : List Char :=
  A.tempDir ++ "/page_".toList ++ pad4 page ++ ".png".toList

/-- Result of the Step 2 loop (lines 180-200): its trace, the
`all_extracted_images` dictionary (only non-empty extraction results are
inserted), and an uncaught extraction exception if one occurred. -/
structure Phase2Out where
  events : List Event
  dict : List (Nat × List ImgMeta)
  err : Option (List Char)

/-- Step 2: save page images and extract embedded images, page by page.
An exception escaping `extract_images_from_page` is not caught by
`convert_pdf_to_markdown` and aborts the loop. -/
def phase2 (A : ConvArgs) : List Nat → Phase2Out
  | [] => ⟨[], [], none⟩
  | p :: ps =>
    let copyEvs : List Event :=
      if Config.SAVE_PAGE_IMAGES && imagesDirPresent A then [.pageCopy p] else []
    if Config.EXTRACT_EMBEDDED_IMAGES && imagesDirPresent A then
      match extract_images_from_page A.totalPages A.extractOracle p (imagesDirPath A)
          Config.MIN_IMAGE_WIDTH Config.MIN_IMAGE_HEIGHT with
      | .error e => ⟨copyEvs ++ [.extractCall p], [], some e⟩
      | .ok pr =>
        let r := phase2 A ps
        ⟨copyEvs ++ .extractCall p :: pr.2 ++ r.events,
         (if pr.1.isEmpty then [] else [(p, pr.1)]) ++ r.dict, r.err⟩
    else
      let r := phase2 A ps
      ⟨copyEvs ++ r.events, r.dict, r.err⟩

/-- The per-page post-processing applied inside the retry `try` block after a
successful inference (lines 229-235). -/
def postInfer (A : ConvArgs) (dict : List (Nat × List ImgMeta)) (page : Nat)
    (md : List Char) : List Char :=
  match dict.lookup page with
  | some imgs =>
    if imgs.isEmpty then md
    else
      replace_image_placeholders_single_page md imgs page
        (if imagesDirPresent A then some (imagesDirName A) else none)
  | none => md

/-- Outcome of the retry loop for one page: its trace, the final
`page_markdown`, and the failure record if all attempts failed. -/
structure PageOut where
  events : List Event
  markdown : List Char
  failure : Option FailRec

/-- `*[ERROR: ...]*` markdown synthesized after the final failed attempt. -/
def errorMarkdown (idx : Nat) (e : List Char) : List Char :=
  "*[ERROR: Failed to process page ".toList ++ natChars idx ++ " after ".toList ++
  natChars max_retries ++ " attempts]*\n\n*Error: ".toList ++ e ++ "*".toList

/-- The `for attempt in range(1, max_retries + 1)` loop (lines 223-254):
`remaining` counts the attempts still allowed (`max_retries` at entry),
`a` is the current attempt number. -/
def attemptLoop (infer : Nat → Except (List Char) (List Char))
    (post : List Char → List Char) (image_path : List Char) (page idx : Nat) :
    Nat → Nat → PageOut
  | 0, _ => ⟨[], [], none⟩
  | remaining + 1, a =>
    match infer a with
    | .ok md => ⟨[.inferAttempt page a], post md, none⟩
    | .error e =>
      if remaining = 0 then
        ⟨[.inferAttempt page a], errorMarkdown idx e, some ⟨idx, image_path, e⟩⟩
      else
        let r := attemptLoop infer post image_path page idx remaining (a + 1)
        ⟨.inferAttempt page a :: .sleep (retry_delay * 2 ^ (a - 1)) :: r.events,
         r.markdown, r.failure⟩

/-- Result of the Step 3 loop over all pages. -/
structure LoopOut where
  events : List Event
  content : List Char
  failed : List FailRec
  sections : List (Nat × List Char)

/-- Step 3 (lines 213-260): process each page with the retry loop and append
the resulting section — note the guard `if output_path_obj and page_markdown`
uses Python truthiness, so an empty `page_markdown` is not appended. -/
def processPages (A : ConvArgs) (dict : List (Nat × List ImgMeta)) :
    List Nat → Nat → LoopOut
  | [], _ => ⟨[], [], [], []⟩
  | p :: ps, idx =>
    let t := attemptLoop (A.inferOracle p) (postInfer A dict p) (pagePath A p) p idx
      max_retries 1
    let appended := A.outputGiven && !t.markdown.isEmpty
    let r := processPages A dict ps (idx + 1)
    ⟨t.events ++ (if appended then [.sectionAppend idx] else []) ++ r.events,
     (if appended then mkSection idx t.markdown else []) ++ r.content,
     t.failure.toList ++ r.failed,
     (if appended then [(idx, t.markdown)] else []) ++ r.sections⟩

/-- Observable outcome of one `convert_pdf_to_markdown` run. -/
structure RunResult where
  events : List Event
  outcome : Except (List Char) (Nat × Nat)
  fileContent : List Char
  sections : List (Nat × List Char)
  failedPages : List FailRec
  extractedDict : List (Nat × List ImgMeta)
  failedLedger : Option (List FailRec)
  imagesLedger : Option MetaLedger

/-- `convert_pdf_to_markdown`.  `outcome` carries the success/total counts
that the source formats into its summary string; an uncaught exception is an
`error`.  `fileContent` is the output file's content after the run, starting
from `initContent`. -/
def convert_pdf_to_markdown (A : ConvArgs) (initContent : List Char) : RunResult :=
  if !A.pdfExists then
    ⟨[], .error "PDF file not found".toList, initContent, [], [], [], none, none⟩
  else
    match pdf_to_images A.totalPages A.first? A.last? with
    | .error e => ⟨[], .error e, initContent, [], [], [], none, none⟩
    | .ok pr =>
      let pages := pr.1
      let p2 := phase2 A pages
      match p2.err with
      | some e =>
        ⟨pr.2 ++ p2.events, .error e, initContent, [], [], p2.dict, none, none⟩
      | none =>
        let headerEvs : List Event := if A.outputGiven then [.headerWrite] else []
        let content0 :=
          if A.outputGiven then mkMarkdownHeader A.pdfStem A.now pages.length
          else initContent
        let lo := processPages A p2.dict pages 1
        let failLedger :=
          if A.outputGiven && !lo.failed.isEmpty then some lo.failed else none
        let imgLedger :=
          if A.outputGiven && !p2.dict.isEmpty && Config.SAVE_IMAGE_METADATA_JSON then
            some (save_image_metadata A.pdfStem A.nowIso p2.dict)
          else none
        ⟨pr.2 ++ p2.events ++ headerEvs ++ lo.events,
         .ok (pages.length - lo.failed.length, pages.length),
         content0 ++ lo.content, lo.sections, lo.failed, p2.dict, failLedger, imgLedger⟩

/-! ## General run lemmas -/

/-- The requested page range (after resolving defaults) is valid. -/
def validRange (totalPages : Nat) (first? last? : Option Int) : Prop :=
  1 ≤ first?.getD 1 ∧ first?.getD 1 ≤ (totalPages : Int) ∧
  first?.getD 1 ≤ last?.getD totalPages ∧ last?.getD totalPages ≤ (totalPages : Int)

instance (t : Nat) (f? l? : Option Int) : Decidable (validRange t f? l?) := by
  unfold validRange; infer_instance

/-- The list of page numbers rasterized for a request. -/
def pagesOf (totalPages : Nat) (first? last? : Option Int) : List Nat :=
  (List.range ((last?.getD totalPages) + 1 - (first?.getD 1)).toNat).map
    fun i => (first?.getD 1).toNat + i

/-- Concrete arguments exercising C8: a 3-page document asked for pages 5..7. -/
def C8args : ConvArgs :=
  ⟨true, "doc".toList, 3, "now".toList, "iso".toList, "tmp".toList, true,
   "out".toList, "o".toList, some 5, some 7, fun _ => [],
   fun _ _ => .ok "text".toList⟩

/-- The pages a run processes. -/
def runPages (A : ConvArgs) : List Nat := pagesOf A.totalPages A.first? A.last?

/-- Metadata of the embedded images kept for a page. -/
def extractMetas (A : ConvArgs) (p : Nat) : List ImgMeta :=
  (extractGo p (imagesDirPath A) Config.MIN_IMAGE_WIDTH Config.MIN_IMAGE_HEIGHT
    (A.extractOracle p) 1).1

/-- Image-write events of the extraction for a page. -/
def extractEvs (A : ConvArgs) (p : Nat) : List Event :=
  (extractGo p (imagesDirPath A) Config.MIN_IMAGE_WIDTH Config.MIN_IMAGE_HEIGHT
    (A.extractOracle p) 1).2

/-- The `all_extracted_images` dictionary built by Step 2. -/
def phase2Dict (A : ConvArgs) (ps : List Nat) : List (Nat × List ImgMeta) :=
  ps.filterMap fun p =>
    if (extractMetas A p).isEmpty then none else some (p, extractMetas A p)

/-- The Step 2 event trace when an output path was given. -/
def phase2Evs (A : ConvArgs) (ps : List Nat) : List Event :=
  ps.flatMap fun p => .pageCopy p :: .extractCall p :: extractEvs A p

/-- The outcome of one page's retry loop. -/
def pageOutOf (A : ConvArgs) (dict : List (Nat × List ImgMeta)) (p idx : Nat) :
    PageOut :=
  attemptLoop (A.inferOracle p) (postInfer A dict p) (pagePath A p) p idx
    max_retries 1

/-- Witness arguments for C9: a 2-page document, output given. -/
def C9args : ConvArgs :=
  ⟨true, "doc".toList, 2, "now".toList, "iso".toList, "tmp".toList, true,
   "out".toList, "o".toList, none, none, fun _ => [],
   fun _ _ => .ok "text".toList⟩

/-- Witness arguments for C1: 3-page document, pages 2..3 requested,
inference succeeds with non-empty text. -/
def C1args : ConvArgs :=
  ⟨true, "doc".toList, 3, "now".toList, "iso".toList, "tmp".toList, true,
   "out".toList, "o".toList, some 2, some 3, fun _ => [],
   fun _ _ => .ok "hello".toList⟩

/-- Arguments refuting C1 as stated: a 1-page document whose (successful)
inference returns the empty string. -/
def C1cexArgs : ConvArgs :=
  ⟨true, "doc".toList, 1, "now".toList, "iso".toList, "tmp".toList, true,
   "out".toList, "o".toList, none, none, fun _ => [],
   fun _ _ => .ok []⟩

/-- Witness arguments for C4: a 2-page document whose every embedded-image
extraction raises inside the per-image try block. -/
def C4args : ConvArgs :=
  ⟨true, "doc".toList, 2, "now".toList, "iso".toList, "tmp".toList, true,
   "out".toList, "o".toList, none, none, fun _ => [.failed "io error".toList],
   fun _ _ => .ok "txt".toList⟩

/-- Witness arguments for C5: a 1-page document whose inference always fails. -/
def C5args : ConvArgs :=
  ⟨true, "doc".toList, 1, "now".toList, "iso".toList, "tmp".toList, true,
   "out".toList, "o".toList, none, none, fun _ => [],
   fun _ _ => .error "down".toList⟩

/-- Arguments refuting the "page ordinal" part of C5 as stated: a 3-page
document restricted to the range 2..2, with inference always failing. -/
def C5cexArgs : ConvArgs :=
  ⟨true, "doc".toList, 3, "now".toList, "iso".toList, "tmp".toList, true,
   "out".toList, "o".toList, some 2, some 2, fun _ => [],
   fun _ _ => .error "down".toList⟩

/-- Witness arguments for C10: a 2-page document where page 1 yields one
kept graphic and page 2 yields none. -/
def C10args : ConvArgs :=
  ⟨true, "doc".toList, 2, "now".toList, "iso".toList, "tmp".toList, true,
   "out".toList, "o".toList, none, none,
   fun p => if p = 1 then [.ok 2048 "png".toList 150 120] else [],
   fun _ _ => .ok "txt".toList⟩

/-- A block of text in which no (proper) position can start a pattern match,
whatever text follows. -/
def BlockSafe (a : List Char) : Prop :=
  ∀ x y, a = x ++ y → y ≠ [] → ∀ b, matchAt (y ++ b) = none

/-- `s` does not contain the literal `IMAGE_PLACEHOLDER` marker. -/
def MF (s : List Char) : Prop := ¬ marker <:+: s

/-- A page text as the model emits it: literal text interleaved with generic
placeholder image links `![alt](IMAGE_PLACEHOLDER)`. -/
inductive Seg where
  | lit (s : List Char)
  | ph (alt : List Char)

/-- Rendering of one segment to raw text. -/
def renderSeg : Seg → List Char
  | .lit s => s
  | .ph alt => phText alt

/-- Rendering of a whole page text. -/
def renderSegs (segs : List Seg) : List Char := (segs.map renderSeg).flatten

/-- The number `P` of placeholder references in the page text. -/
def phCount (segs : List Seg) : Nat :=
  segs.countP fun s => match s with | .ph _ => true | .lit _ => false

/-- Well-formed literal text: no `!` (so no image link starts inside it), no
`<` (so it cannot start an HTML comment) and no stray literal marker. -/
def WfLit (s : List Char) : Prop := '!' ∉ s ∧ '<' ∉ s ∧ MF s

/-- Well-formed alt text of a placeholder (lines the model writes inside
`![...]`): no `]`, no `!`, no `<`, no stray marker. -/
def WfAlt (a : List Char) : Prop := ']' ∉ a ∧ '!' ∉ a ∧ '<' ∉ a ∧ MF a

def WfSeg : Seg → Prop
  | .lit s => WfLit s
  | .ph a => WfAlt a

/-- Adjacent segments are not both literals (any text has such a normal
form, obtained by merging adjacent literals). -/
def SegSep : Seg → Seg → Prop
  | .lit _, .lit _ => False
  | _, _ => True

/-- Well-formed file/directory/format name: the characters the extractor
produces (`page_NNN_img_NNN.ext` under the images directory). -/
def WfName (s : List Char) : Prop :=
  '!' ∉ s ∧ '<' ∉ s ∧ ']' ∉ s ∧ ')' ∉ s ∧ MF s

def WfMeta (m : ImgMeta) : Prop := WfName m.filename ∧ WfName m.format

instance (s : List Char) : Decidable (MF s) := by unfold MF; infer_instance

instance (s : List Char) : Decidable (WfLit s) := by unfold WfLit; infer_instance

instance (a : List Char) : Decidable (WfAlt a) := by unfold WfAlt; infer_instance

instance : (s : Seg) → Decidable (WfSeg s)
  | .lit s => inferInstanceAs (Decidable (WfLit s))
  | .ph a => inferInstanceAs (Decidable (WfAlt a))

instance : (s t : Seg) → Decidable (SegSep s t)
  | .lit _, .lit _ => inferInstanceAs (Decidable False)
  | .lit _, .ph _ => inferInstanceAs (Decidable True)
  | .ph _, .lit _ => inferInstanceAs (Decidable True)
  | .ph _, .ph _ => inferInstanceAs (Decidable True)

instance (s : List Char) : Decidable (WfName s) := by unfold WfName; infer_instance

instance (m : ImgMeta) : Decidable (WfMeta m) := by unfold WfMeta; infer_instance

/-- The text a resolved placeholder becomes (the `replacement` of the source
for a match without a model-authored comment). -/
def resolvedText (alt : List Char) (m : ImgMeta) (page_num : Nat) (dn : List Char) :
    List Char :=
  "![".toList ++ alt ++ "](".toList ++ relPath dn m ++ ")".toList ++
    "\n<!-- ".toList ++ metadataText m page_num ++ " -->".toList

/-- Positional reconciliation, specified structurally: walk the page text in
order, pairing the Nth placeholder with the Nth graphic; excess placeholders
keep their literal `IMAGE_PLACEHOLDER` marker, excess graphics leave the
text unchanged. -/
def renderResolved (pn : Nat) (dn : List Char) : List Seg → List ImgMeta → List Char
  | [], _ => []
  | .lit s :: rest, imgs => s ++ renderResolved pn dn rest imgs
  | .ph alt :: rest, [] => phText alt ++ renderResolved pn dn rest []
  | .ph alt :: rest, m :: ms => resolvedText alt m pn dn ++ renderResolved pn dn rest ms

/-- The number of placeholders the walk resolves. -/
def numResolved : List Seg → List ImgMeta → Nat
  | [], _ => 0
  | .lit _ :: rest, imgs => numResolved rest imgs
  | .ph _ :: rest, [] => numResolved rest []
  | .ph _ :: rest, _ :: ms => 1 + numResolved rest ms

/-- Witness page text for C2: two placeholders, one graphic. -/
def C2segs : List Seg :=
  [Seg.lit "Intro ".toList, Seg.ph "Fig 1".toList, Seg.lit " mid ".toList,
   Seg.ph "Fig 2".toList, Seg.lit " end.".toList]

/-- Witness graphic list for C2. -/
def C2imgs : List ImgMeta :=
  [⟨"page_003_img_001.png".toList, "p1".toList, 200, 150, 2048, "png".toList, 3, 1⟩]

theorem pdf_to_images_ok (totalPages : Nat) (first? last? : Option Int)
    (h : validRange totalPages first? last?) :
    pdf_to_images totalPages first? last? =
      .ok (pagesOf totalPages first? last?,
        (pagesOf totalPages first? last?).map Event.raster) := by
  obtain ⟨h1, h2, h3, h4⟩ := h
  unfold pdf_to_images pagesOf
  rw [if_neg (by omega), if_neg (by omega)]

theorem pdf_to_images_err (totalPages : Nat) (first? last? : Option Int)
    (h : ¬ validRange totalPages first? last?) :
    ∃ e, pdf_to_images totalPages first? last? = .error e := by
  unfold validRange at h
  unfold pdf_to_images
  by_cases h1 : (first?.getD 1) < 1 ∨ (first?.getD 1) > (totalPages : Int)
  · rw [if_pos h1]; exact ⟨_, rfl⟩
  · rw [if_neg h1, if_pos (by omega)]; exact ⟨_, rfl⟩

theorem length_pagesOf (totalPages : Nat) (first? last? : Option Int) :
    (pagesOf totalPages first? last?).length =
      ((last?.getD totalPages) + 1 - (first?.getD 1)).toNat := by
  simp [pagesOf]

theorem mem_pagesOf (totalPages : Nat) (first? last? : Option Int) (p : Nat)
    (h : validRange totalPages first? last?) (hp : p ∈ pagesOf totalPages first? last?) :
    1 ≤ p ∧ p ≤ totalPages := by
  obtain ⟨h1, h2, h3, h4⟩ := h
  simp only [pagesOf, List.mem_map, List.mem_range] at hp
  obtain ⟨i, hi, rfl⟩ := hp
  omega

/-! ## Claim C3: retry cap and exponential backoff -/

/-- **C3** (confirmed).  For a page whose inference call fails on every
attempt, the retry loop of `convert_pdf_to_markdown` (lines 223-254,
embedded as `attemptLoop` entered with `max_retries = 3` attempts allowed
and attempt number 1) makes exactly `max_retries` invocation attempts,
sleeps `retry_delay * 2 ^ (k - 1)` seconds after each failed attempt
`k < max_retries` (and only then), and produces exactly one failure
record, carrying the last error. -/
theorem C3_retry_cap_and_backoff (infer : Nat → Except (List Char) (List Char))
    (post : List Char → List Char) (image_path : List Char) (page idx : Nat)
    (e : Nat → List Char)
    (h1 : infer 1 = .error (e 1)) (h2 : infer 2 = .error (e 2))
    (h3 : infer 3 = .error (e 3)) :
    attemptLoop infer post image_path page idx max_retries 1 =
      ⟨[.inferAttempt page 1, .sleep (retry_delay * 2 ^ (1 - 1)),
        .inferAttempt page 2, .sleep (retry_delay * 2 ^ (2 - 1)),
        .inferAttempt page 3],
       errorMarkdown idx (e 3), some ⟨idx, image_path, e 3⟩⟩ := by
  show attemptLoop infer post image_path page idx 3 1 = _
  simp [attemptLoop, h1, h2, h3]

/-- Witness for C3 at a concrete always-failing oracle. -/
theorem C3_retry_cap_and_backoff_witness :
    attemptLoop (fun _ => .error "boom".toList) id "tmp/p1".toList 5 1 max_retries 1 =
      ⟨[.inferAttempt 5 1, .sleep (retry_delay * 2 ^ (1 - 1)),
        .inferAttempt 5 2, .sleep (retry_delay * 2 ^ (2 - 1)),
        .inferAttempt 5 3],
       errorMarkdown 1 "boom".toList, some ⟨1, "tmp/p1".toList, "boom".toList⟩⟩ :=
  C3_retry_cap_and_backoff (fun _ => .error "boom".toList) id "tmp/p1".toList 5 1
    (fun _ => "boom".toList) rfl rfl rfl

/-! ## Claim C8: invalid page range aborts before any work -/

/-- **C8** (confirmed).  If the resolved page range is invalid
(`first_page < 1`, `first_page > total_pages`, `last_page < first_page`
or `last_page > total_pages`), the run raises the `ValueError` from
`pdf_to_images` before any work: the event trace is empty (so no page is
rasterized, no inference attempt is made, no section is appended and no
header is written), the output file keeps its prior content, and no
ledger is produced. -/
theorem C8_invalid_range_is_fatal_precondition (A : ConvArgs) (c0 : List Char)
    (hex : A.pdfExists = true)
    (hbad : (A.first?.getD 1) < 1 ∨ (A.first?.getD 1) > (A.totalPages : Int) ∨
      (A.last?.getD A.totalPages) < (A.first?.getD 1) ∨
      (A.last?.getD A.totalPages) > (A.totalPages : Int)) :
    (convert_pdf_to_markdown A c0).events = [] ∧
    (∃ msg, (convert_pdf_to_markdown A c0).outcome = .error msg) ∧
    (convert_pdf_to_markdown A c0).fileContent = c0 ∧
    (convert_pdf_to_markdown A c0).sections = [] ∧
    (convert_pdf_to_markdown A c0).failedLedger = none ∧
    (convert_pdf_to_markdown A c0).imagesLedger = none := by
  obtain ⟨e, he⟩ := pdf_to_images_err A.totalPages A.first? A.last?
    (by unfold validRange; omega)
  unfold convert_pdf_to_markdown
  rw [hex]
  simp [he]

/-- Witness for C8 at `C8args`. -/
theorem C8_invalid_range_is_fatal_precondition_witness :
    (convert_pdf_to_markdown C8args "old".toList).events = [] ∧
    (∃ msg, (convert_pdf_to_markdown C8args "old".toList).outcome = .error msg) ∧
    (convert_pdf_to_markdown C8args "old".toList).fileContent = "old".toList ∧
    (convert_pdf_to_markdown C8args "old".toList).sections = [] ∧
    (convert_pdf_to_markdown C8args "old".toList).failedLedger = none ∧
    (convert_pdf_to_markdown C8args "old".toList).imagesLedger = none :=
  C8_invalid_range_is_fatal_precondition C8args "old".toList rfl (by decide)

/-! ## Characterization of a valid run -/

theorem phase2_eq (A : ConvArgs) (ps : List Nat) (hout : A.outputGiven = true)
    (hin : ∀ p ∈ ps, 1 ≤ p ∧ p ≤ A.totalPages) :
    phase2 A ps = ⟨phase2Evs A ps, phase2Dict A ps, none⟩ := by
  induction ps with
  | nil => rfl
  | cons p ps ih =>
    have hp := hin p (List.mem_cons_self p ps)
    have hrec := ih fun q hq => hin q (List.mem_cons_of_mem p hq)
    unfold phase2
    rw [hrec]
    simp only [imagesDirPresent, hout, Config.SAVE_PAGE_IMAGES,
      Config.EXTRACT_EMBEDDED_IMAGES, Bool.and_self, Bool.true_and, Bool.or_self,
      if_true, extract_images_from_page, if_neg (by omega :
        ¬ (p < 1 ∨ A.totalPages < p))]
    simp only [phase2Evs, phase2Dict, extractMetas, extractEvs, List.flatMap_cons,
      List.filterMap_cons]
    by_cases hm : (extractGo p (imagesDirPath A) Config.MIN_IMAGE_WIDTH
        Config.MIN_IMAGE_HEIGHT (A.extractOracle p) 1).1 = []
    · simp [hm]
    · simp [hm]

/-- Closed form of a run with an existing input, a given output path and a
valid page range. -/
theorem convert_eq_ok (A : ConvArgs) (c0 : List Char) (hex : A.pdfExists = true)
    (hout : A.outputGiven = true) (hval : validRange A.totalPages A.first? A.last?) :
    convert_pdf_to_markdown A c0 =
      ⟨(runPages A).map Event.raster ++ phase2Evs A (runPages A) ++ [.headerWrite] ++
        (processPages A (phase2Dict A (runPages A)) (runPages A) 1).events,
       .ok ((runPages A).length -
          (processPages A (phase2Dict A (runPages A)) (runPages A) 1).failed.length,
        (runPages A).length),
       mkMarkdownHeader A.pdfStem A.now (runPages A).length ++
        (processPages A (phase2Dict A (runPages A)) (runPages A) 1).content,
       (processPages A (phase2Dict A (runPages A)) (runPages A) 1).sections,
       (processPages A (phase2Dict A (runPages A)) (runPages A) 1).failed,
       phase2Dict A (runPages A),
       (if (processPages A (phase2Dict A (runPages A)) (runPages A) 1).failed.isEmpty
        then none
        else some (processPages A (phase2Dict A (runPages A)) (runPages A) 1).failed),
       (if (phase2Dict A (runPages A)).isEmpty then none
        else some (save_image_metadata A.pdfStem A.nowIso
          (phase2Dict A (runPages A))))⟩ := by
  have h1 := pdf_to_images_ok A.totalPages A.first? A.last? hval
  have h2 := phase2_eq A (pagesOf A.totalPages A.first? A.last?) hout
    (fun p hp => mem_pagesOf A.totalPages A.first? A.last? p hval hp)
  simp only [convert_pdf_to_markdown, hex, h1, h2, runPages, hout,
    Config.SAVE_IMAGE_METADATA_JSON, Bool.not_true, Bool.true_and, Bool.and_true,
    Bool.false_eq_true, if_false, if_true]
  cases hfe : (processPages A (phase2Dict A (pagesOf A.totalPages A.first? A.last?))
      (pagesOf A.totalPages A.first? A.last?) 1).failed.isEmpty <;>
    cases hde : (phase2Dict A (pagesOf A.totalPages A.first? A.last?)).isEmpty <;>
    simp [hfe, hde]

/-! ## Shapes of the event sub-traces -/

theorem extractGo_events_imgWrite (page_num : Nat) (dir : List Char) (mw mh : Nat)
    (rs : List ExtractRes) : ∀ (i : Nat), ∀ ev ∈ (extractGo page_num dir mw mh rs i).2,
      ∃ fn w h, ev = .imgWrite page_num fn w h := by
  induction rs with
  | nil => intro i ev hev; simp [extractGo] at hev
  | cons r rs ih =>
    intro i ev hev
    cases r with
    | failed m =>
      simp only [extractGo] at hev
      exact ih (i + 1) ev hev
    | noBase =>
      simp only [extractGo] at hev
      exact ih (i + 1) ev hev
    | ok size ext w h =>
      simp only [extractGo] at hev
      by_cases hs : w < mw ∨ h < mh
      · rw [if_pos hs] at hev
        exact ih (i + 1) ev hev
      · rw [if_neg hs] at hev
        simp only [List.mem_cons] at hev
        rcases hev with h1 | h1
        · exact ⟨_, _, _, h1⟩
        · exact ih (i + 1) ev h1

theorem phase2Evs_shape (A : ConvArgs) (ps : List Nat) :
    ∀ ev ∈ phase2Evs A ps,
      (∃ p, ev = .pageCopy p) ∨ (∃ p, ev = .extractCall p) ∨
      (∃ p fn w h, ev = .imgWrite p fn w h) := by
  intro ev hev
  simp only [phase2Evs, List.mem_flatMap] at hev
  obtain ⟨p, _, hp⟩ := hev
  simp only [List.mem_cons] at hp
  rcases hp with h1 | h1 | h1
  · exact .inl ⟨p, h1⟩
  · exact .inr (.inl ⟨p, h1⟩)
  · obtain ⟨fn, w, h, hw⟩ := extractGo_events_imgWrite p (imagesDirPath A)
      Config.MIN_IMAGE_WIDTH Config.MIN_IMAGE_HEIGHT (A.extractOracle p) 1 ev h1
    exact .inr (.inr ⟨p, fn, w, h, hw⟩)

theorem attemptLoop_events_shape (infer : Nat → Except (List Char) (List Char))
    (post : List Char → List Char) (ip : List Char) (page idx : Nat) :
    ∀ rem a, ∀ ev ∈ (attemptLoop infer post ip page idx rem a).events,
      (∃ b, ev = .inferAttempt page b) ∨ ∃ s, ev = .sleep s := by
  intro rem
  induction rem with
  | zero => intro a ev hev; simp [attemptLoop] at hev
  | succ rem ih =>
    intro a ev hev
    cases hin : infer a with
    | ok md =>
      simp only [attemptLoop, hin, List.mem_singleton] at hev
      exact .inl ⟨a, hev⟩
    | error e =>
      simp only [attemptLoop, hin] at hev
      by_cases hr : rem = 0
      · rw [if_pos hr] at hev
        simp only [List.mem_singleton] at hev
        exact .inl ⟨a, hev⟩
      · rw [if_neg hr] at hev
        simp only [List.mem_cons] at hev
        rcases hev with h1 | h1 | h1
        · exact .inl ⟨a, h1⟩
        · exact .inr ⟨_, h1⟩
        · exact ih (a + 1) ev h1

theorem processPages_events_shape (A : ConvArgs) (dict : List (Nat × List ImgMeta))
    (ps : List Nat) : ∀ idx0, ∀ ev ∈ (processPages A dict ps idx0).events,
      (∃ p b, ev = .inferAttempt p b) ∨ (∃ s, ev = .sleep s) ∨
      (∃ i, ev = .sectionAppend i) := by
  induction ps with
  | nil => intro idx0 ev hev; simp [processPages] at hev
  | cons p ps ih =>
    intro idx0 ev hev
    simp only [processPages, List.mem_append] at hev
    rcases hev with (h1 | h1) | h1
    · rcases attemptLoop_events_shape (A.inferOracle p) (postInfer A dict p)
        (pagePath A p) p idx0 max_retries 1 ev h1 with ⟨b, hb⟩ | ⟨s, hs⟩
      · exact .inl ⟨p, b, hb⟩
      · exact .inr (.inl ⟨s, hs⟩)
    · by_cases happ : (A.outputGiven && !(attemptLoop (A.inferOracle p)
          (postInfer A dict p) (pagePath A p) p idx0 max_retries 1).markdown.isEmpty)
          = true
      · rw [if_pos happ] at h1
        simp only [List.mem_singleton] at h1
        exact .inr (.inr ⟨idx0, h1⟩)
      · rw [if_neg happ] at h1
        simp at h1
    · exact ih (idx0 + 1) ev h1

/-! ## Claim C9: the header is written exactly once and truncates -/

/-- **C9** (confirmed).  On a run with an existing input, a given output path
and a valid page range: the header-write (a truncating `write_text`) happens
exactly once in the run's trace, and the final content of the output file
does not depend on the file's prior content — re-running over the same path
rewrites the file from scratch instead of appending a second header. -/
theorem C9_header_once_and_truncating (A : ConvArgs) (c0 c1 : List Char)
    (hex : A.pdfExists = true) (hout : A.outputGiven = true)
    (hval : validRange A.totalPages A.first? A.last?) :
    (convert_pdf_to_markdown A c0).events.count .headerWrite = 1 ∧
    (convert_pdf_to_markdown A c0).fileContent =
      (convert_pdf_to_markdown A c1).fileContent := by
  constructor
  · rw [convert_eq_ok A c0 hex hout hval]
    simp only [List.count_append]
    have z1 : ((runPages A).map Event.raster).count Event.headerWrite = 0 := by
      rw [List.count_eq_zero]
      intro h
      obtain ⟨p, _, hp⟩ := List.mem_map.mp h
      simp at hp
    have z2 : (phase2Evs A (runPages A)).count Event.headerWrite = 0 := by
      rw [List.count_eq_zero]
      intro h
      rcases phase2Evs_shape A (runPages A) _ h with ⟨p, hp⟩ | ⟨p, hp⟩ | ⟨p, fn, w, hh, hp⟩ <;>
        simp at hp
    have z3 : ((processPages A (phase2Dict A (runPages A)) (runPages A) 1).events).count
        Event.headerWrite = 0 := by
      rw [List.count_eq_zero]
      intro h
      rcases processPages_events_shape A (phase2Dict A (runPages A)) (runPages A) 1 _ h
        with ⟨p, b, hp⟩ | ⟨s, hp⟩ | ⟨i, hp⟩ <;> simp at hp
    rw [z1, z2, z3]
    rfl
  · rw [convert_eq_ok A c0 hex hout hval, convert_eq_ok A c1 hex hout hval]

/-- Witness for C9 at `C9args`, with two different prior file contents. -/
theorem C9_header_once_and_truncating_witness :
    (convert_pdf_to_markdown C9args "old stuff".toList).events.count .headerWrite = 1 ∧
    (convert_pdf_to_markdown C9args "old stuff".toList).fileContent =
      (convert_pdf_to_markdown C9args "".toList).fileContent :=
  C9_header_once_and_truncating C9args "old stuff".toList "".toList rfl rfl
    (by constructor <;> [decide; (constructor <;> [decide; (constructor <;> decide)])])

/-! ## Nonemptiness of the per-page markdown -/

theorem replaceOnce_ne_nil (md old new : List Char) (hmd : md ≠ [])
    (hnew : new ≠ []) : replaceOnce md old new ≠ [] := by
  cases md with
  | nil => exact absurd rfl hmd
  | cons c cs =>
    unfold replaceOnce
    cases dropPrefixQ old (c :: cs) with
    | some rest => exact fun h => hnew (List.append_eq_nil.mp h).1
    | none => simp

theorem mkReplacement_ne_nil (r : MatchRes) (m : ImgMeta) (page_num : Nat)
    (dirname : List Char) : mkReplacement r m page_num dirname ≠ [] := by
  unfold mkReplacement
  cases r.comment <;> simp

theorem relPath_ne_nil (dirname : List Char) (m : ImgMeta) :
    relPath dirname m ≠ [] := by
  simp [relPath]

theorem replaceStep_ne_nil (page_num : Nat) (dirname : List Char) (md : List Char)
    (m : ImgMeta) (hmd : md ≠ []) : replaceStep page_num dirname md m ≠ [] := by
  unfold replaceStep
  cases searchFrom md with
  | some r => exact replaceOnce_ne_nil md _ _ hmd (mkReplacement_ne_nil r m page_num dirname)
  | none => exact replaceOnce_ne_nil md _ _ hmd (relPath_ne_nil dirname m)

theorem replaceFold_ne_nil (page_num : Nat) (dirname : List Char)
    (imgs : List ImgMeta) : ∀ md, md ≠ [] →
    imgs.foldl (replaceStep page_num dirname) md ≠ [] := by
  induction imgs with
  | nil => intro md hmd; exact hmd
  | cons m imgs ih =>
    intro md hmd
    exact ih _ (replaceStep_ne_nil page_num dirname md m hmd)

theorem replace_single_page_ne_nil (md : List Char) (imgs : List ImgMeta)
    (page_num : Nat) (dn? : Option (List Char)) (hmd : md ≠ []) :
    replace_image_placeholders_single_page md imgs page_num dn? ≠ [] := by
  cases dn? with
  | none => simpa [replace_image_placeholders_single_page] using hmd
  | some dn =>
    by_cases he : imgs.isEmpty
    · simpa [replace_image_placeholders_single_page, he] using hmd
    · simpa [replace_image_placeholders_single_page, he] using
        replaceFold_ne_nil page_num dn imgs md hmd

theorem postInfer_ne_nil (A : ConvArgs) (dict : List (Nat × List ImgMeta))
    (page : Nat) (md : List Char) (hmd : md ≠ []) :
    postInfer A dict page md ≠ [] := by
  cases hl : dict.lookup page with
  | none => simpa [postInfer, hl] using hmd
  | some imgs =>
    by_cases he : imgs.isEmpty
    · simpa [postInfer, hl, he] using hmd
    · simpa [postInfer, hl, he] using replace_single_page_ne_nil md imgs page
        (if imagesDirPresent A then some (imagesDirName A) else none) hmd

theorem errorMarkdown_ne_nil (idx : Nat) (e : List Char) :
    errorMarkdown idx e ≠ [] := by
  simp [errorMarkdown]

theorem attemptLoop_markdown_ne_nil (infer : Nat → Except (List Char) (List Char))
    (post : List Char → List Char) (ip : List Char) (page idx : Nat) :
    ∀ rem a, rem ≠ 0 → (∀ b md, infer b = .ok md → md ≠ []) →
    (∀ md, md ≠ [] → post md ≠ []) →
    (attemptLoop infer post ip page idx rem a).markdown ≠ [] := by
  intro rem
  induction rem with
  | zero => intro a h; exact absurd rfl h
  | succ rem ih =>
    intro a _ hsucc hpost
    cases hin : infer a with
    | ok md =>
      simp only [attemptLoop, hin]
      exact hpost md (hsucc a md hin)
    | error e =>
      simp only [attemptLoop, hin]
      by_cases hr : rem = 0
      · rw [if_pos hr]; exact errorMarkdown_ne_nil idx e
      · rw [if_neg hr]
        exact ih (a + 1) hr hsucc hpost

/-! ## Structure of the Step 3 loop output -/

theorem processPages_content_eq (A : ConvArgs) (dict : List (Nat × List ImgMeta)) :
    ∀ ps idx0, (processPages A dict ps idx0).content =
      ((processPages A dict ps idx0).sections.map fun pr => mkSection pr.1 pr.2).flatten := by
  intro ps
  induction ps with
  | nil => intro idx0; rfl
  | cons p ps ih =>
    intro idx0
    simp only [processPages]
    by_cases happ : (A.outputGiven && !(attemptLoop (A.inferOracle p)
        (postInfer A dict p) (pagePath A p) p idx0 max_retries 1).markdown.isEmpty)
        = true
    · rw [if_pos happ, if_pos happ]
      simp [ih (idx0 + 1)]
    · rw [if_neg happ, if_neg happ]
      simp [ih (idx0 + 1)]

theorem processPages_sections_idx (A : ConvArgs) (dict : List (Nat × List ImgMeta))
    (hout : A.outputGiven = true) :
    ∀ ps idx0, (∀ p ∈ ps, ∀ i, (pageOutOf A dict p i).markdown ≠ []) →
    (processPages A dict ps idx0).sections.map Prod.fst =
      List.range' idx0 ps.length := by
  intro ps
  induction ps with
  | nil => intro idx0 _; rfl
  | cons p ps ih =>
    intro idx0 hne
    have hm := hne p (List.mem_cons_self p ps) idx0
    unfold pageOutOf at hm
    have happ : (A.outputGiven && !(attemptLoop (A.inferOracle p)
        (postInfer A dict p) (pagePath A p) p idx0 max_retries 1).markdown.isEmpty)
        = true := by
      simp [hout, List.isEmpty_iff, hm]
    simp only [processPages, if_pos happ, List.singleton_append, List.map_cons,
      List.length_cons]
    rw [ih (idx0 + 1) fun q hq i => hne q (List.mem_cons_of_mem p hq) i]
    rfl

/-! ## Claim C1: one section per requested page (amended) -/

/-- **C1** (corrected).  For a valid page range (with an existing input and a
given output path), *provided every successful inference call returns
non-empty text*, the run appends exactly `last_page - first_page + 1`
sections, numbered `1, 2, ...` in order, and the output file is exactly the
header — whose `Total pages` count equals that number of sections — followed
by those sections.  The proviso is forced by the source's truthiness guard
`if output_path_obj and page_markdown:` (line 257), which silently drops a
page whose successful inference produced the empty string; see the
counterexample. -/
theorem C1_sections_match_range (A : ConvArgs) (c0 : List Char)
    (hex : A.pdfExists = true) (hout : A.outputGiven = true)
    (hval : validRange A.totalPages A.first? A.last?)
    (hne : ∀ p a md, A.inferOracle p a = .ok md → md ≠ []) :
    (convert_pdf_to_markdown A c0).sections.length =
      ((A.last?.getD A.totalPages) + 1 - (A.first?.getD 1)).toNat ∧
    (convert_pdf_to_markdown A c0).sections.map Prod.fst =
      List.range' 1 (convert_pdf_to_markdown A c0).sections.length ∧
    (convert_pdf_to_markdown A c0).fileContent =
      mkMarkdownHeader A.pdfStem A.now (convert_pdf_to_markdown A c0).sections.length ++
      ((convert_pdf_to_markdown A c0).sections.map fun pr => mkSection pr.1 pr.2).flatten := by
  have hmd : ∀ p ∈ runPages A, ∀ i,
      (pageOutOf A (phase2Dict A (runPages A)) p i).markdown ≠ [] := by
    intro p _ i
    unfold pageOutOf
    exact attemptLoop_markdown_ne_nil (A.inferOracle p) _ (pagePath A p) p i
      max_retries 1 (by decide) (fun b md h => hne p b md h)
      (fun md h => postInfer_ne_nil A _ p md h)
  have hsec := processPages_sections_idx A (phase2Dict A (runPages A)) hout
    (runPages A) 1 hmd
  have hlen : (processPages A (phase2Dict A (runPages A)) (runPages A) 1).sections.length
      = (runPages A).length := by
    have := congrArg List.length hsec
    simpa using this
  rw [convert_eq_ok A c0 hex hout hval]
  refine ⟨?_, ?_, ?_⟩
  · rw [hlen]
    exact length_pagesOf A.totalPages A.first? A.last?
  · rw [hlen, hsec]
  · rw [hlen, processPages_content_eq A (phase2Dict A (runPages A)) (runPages A) 1]

/-- Witness for C1 at `C1args`. -/
theorem C1_sections_match_range_witness :
    (convert_pdf_to_markdown C1args "".toList).sections.length =
      ((C1args.last?.getD C1args.totalPages) + 1 - (C1args.first?.getD 1)).toNat ∧
    (convert_pdf_to_markdown C1args "".toList).sections.map Prod.fst =
      List.range' 1 (convert_pdf_to_markdown C1args "".toList).sections.length ∧
    (convert_pdf_to_markdown C1args "".toList).fileContent =
      mkMarkdownHeader C1args.pdfStem C1args.now
        (convert_pdf_to_markdown C1args "".toList).sections.length ++
      ((convert_pdf_to_markdown C1args "".toList).sections.map
        fun pr => mkSection pr.1 pr.2).flatten :=
  C1_sections_match_range C1args "".toList rfl rfl (by decide)
    (fun p a md h => by
      simp only [C1args] at h
      cases h
      decide)

/-- Counterexample to C1 as stated: the range 1..1 is valid and
`last_page - first_page + 1 = 1`, but the run writes zero sections — the
page's successful-but-empty markdown is dropped by the truthiness guard —
while the header still announces `Total pages: 1`. -/
theorem C1_counterexample :
    validRange C1cexArgs.totalPages C1cexArgs.first? C1cexArgs.last? ∧
    ((C1cexArgs.last?.getD C1cexArgs.totalPages) + 1 -
      (C1cexArgs.first?.getD 1)).toNat = 1 ∧
    (convert_pdf_to_markdown C1cexArgs "".toList).sections = [] ∧
    (convert_pdf_to_markdown C1cexArgs "".toList).fileContent =
      mkMarkdownHeader "doc".toList "now".toList 1 := by
  refine ⟨by decide, by decide, by decide, by decide⟩

/-! ## Claim C4: extraction failure is non-fatal -/

theorem extractGo_all_failed (page_num : Nat) (dir : List Char) (mw mh : Nat)
    (rs : List ExtractRes) (hall : ∀ r ∈ rs, ∃ m, r = .failed m) :
    ∀ i, extractGo page_num dir mw mh rs i = ([], []) := by
  induction rs with
  | nil => intro i; rfl
  | cons r rs ih =>
    intro i
    obtain ⟨m, rfl⟩ := hall r (List.mem_cons_self r rs)
    simp only [extractGo]
    exact ih (fun q hq => hall q (List.mem_cons_of_mem _ hq)) (i + 1)

theorem phase2Dict_lookup_none (A : ConvArgs) (p : Nat)
    (hmetas : extractMetas A p = []) :
    ∀ ps, (phase2Dict A ps).lookup p = none := by
  intro ps
  induction ps with
  | nil => rfl
  | cons q ps ih =>
    simp only [phase2Dict, List.filterMap_cons]
    by_cases hq : (extractMetas A q).isEmpty
    · rw [if_pos hq]
      exact ih
    · rw [if_neg hq]
      have hpq : ¬ p = q := by
        intro h
        rw [h] at hmetas
        rw [hmetas] at hq
        exact hq rfl
      have hbeq : (p == q) = false := by simpa using hpq
      simp only [List.lookup_cons, hbeq]
      exact ih

theorem count_extractCall_extractEvs (A : ConvArgs) (q p : Nat) :
    (extractEvs A q).count (Event.extractCall p) = 0 := by
  rw [List.count_eq_zero]
  intro h
  obtain ⟨fn, w, hh, hw⟩ := extractGo_events_imgWrite q (imagesDirPath A)
    Config.MIN_IMAGE_WIDTH Config.MIN_IMAGE_HEIGHT (A.extractOracle q) 1 _ h
  simp at hw

theorem extractCall_mem_phase2Evs (A : ConvArgs) (p : Nat) :
    ∀ ps, Event.extractCall p ∈ phase2Evs A ps → p ∈ ps := by
  intro ps h
  simp only [phase2Evs, List.mem_flatMap] at h
  obtain ⟨q, hq, hin⟩ := h
  simp only [List.mem_cons] at hin
  rcases hin with h1 | h1 | h1
  · simp at h1
  · obtain rfl : q = p := by simpa using h1.symm
    exact hq
  · obtain ⟨fn, w, hh, hw⟩ := extractGo_events_imgWrite q (imagesDirPath A)
      Config.MIN_IMAGE_WIDTH Config.MIN_IMAGE_HEIGHT (A.extractOracle q) 1 _ h1
    simp at hw

theorem count_extractCall_phase2Evs_zero (A : ConvArgs) (p : Nat) (ps : List Nat)
    (hnp : p ∉ ps) : (phase2Evs A ps).count (Event.extractCall p) = 0 :=
  List.count_eq_zero.mpr fun h => hnp (extractCall_mem_phase2Evs A p ps h)

theorem count_extractCall_phase2Evs_one (A : ConvArgs) (p : Nat) :
    ∀ ps, ps.Nodup → p ∈ ps → (phase2Evs A ps).count (Event.extractCall p) = 1 := by
  intro ps
  induction ps with
  | nil => intro _ h; simp at h
  | cons q ps ih =>
    intro hnodup hp
    have hblock : ∀ q', (Event.pageCopy q' :: Event.extractCall q' :: extractEvs A q').count
        (Event.extractCall p) = if q' = p then 1 else 0 := by
      intro q'
      simp only [List.count_cons, count_extractCall_extractEvs A q' p]
      by_cases hq : q' = p <;> simp [hq]
    have hsplit : (phase2Evs A (q :: ps)).count (Event.extractCall p) =
        (if q = p then 1 else 0) + (phase2Evs A ps).count (Event.extractCall p) := by
      simp only [phase2Evs, List.flatMap_cons, List.count_append]
      rw [show (ps.flatMap fun r => Event.pageCopy r :: Event.extractCall r ::
        extractEvs A r) = phase2Evs A ps from rfl, hblock q]
    rw [hsplit]
    rcases List.mem_cons.mp hp with rfl | hmem
    · rw [count_extractCall_phase2Evs_zero A p ps (List.nodup_cons.mp hnodup).1]
      simp
    · have hq : ¬ q = p := fun h => (List.nodup_cons.mp hnodup).1 (h ▸ hmem)
      rw [ih (List.nodup_cons.mp hnodup).2 hmem]
      simp [hq]

theorem nodup_pagesOf (totalPages : Nat) (first? last? : Option Int) :
    (pagesOf totalPages first? last?).Nodup := by
  unfold pagesOf
  exact (List.nodup_range _).map fun a b => by omega

theorem attemptLoop_events_head (infer : Nat → Except (List Char) (List Char))
    (post : List Char → List Char) (ip : List Char) (page idx rem a : Nat) :
    ∃ t, (attemptLoop infer post ip page idx (rem + 1) a).events =
      .inferAttempt page a :: t := by
  cases hin : infer a with
  | ok md => exact ⟨[], by simp [attemptLoop, hin]⟩
  | error e =>
    by_cases hr : rem = 0
    · exact ⟨[], by simp [attemptLoop, hin, hr]⟩
    · exact ⟨.sleep (retry_delay * 2 ^ (a - 1)) ::
        (attemptLoop infer post ip page idx rem (a + 1)).events,
        by simp [attemptLoop, hin, hr]⟩

theorem processPages_inferAttempt_mem (A : ConvArgs) (dict : List (Nat × List ImgMeta))
    (p : Nat) : ∀ ps idx0, p ∈ ps →
    Event.inferAttempt p 1 ∈ (processPages A dict ps idx0).events := by
  intro ps
  induction ps with
  | nil => intro idx0 h; simp at h
  | cons q ps ih =>
    intro idx0 hp
    simp only [processPages, List.mem_append]
    rcases List.mem_cons.mp hp with rfl | hmem
    · left; left
      obtain ⟨t, ht⟩ := attemptLoop_events_head (A.inferOracle p) (postInfer A dict p)
        (pagePath A p) p idx0 2 1
      rw [show max_retries = 2 + 1 from rfl, ht]
      exact List.mem_cons_self _ _
    · right
      exact ih (idx0 + 1) hmem

theorem processPages_sectionAppend_mem (A : ConvArgs)
    (dict : List (Nat × List ImgMeta)) (hout : A.outputGiven = true) :
    ∀ ps idx0 k, (hk : k < ps.length) →
    (pageOutOf A dict ps[k] (idx0 + k)).markdown ≠ [] →
    Event.sectionAppend (idx0 + k) ∈ (processPages A dict ps idx0).events := by
  intro ps
  induction ps with
  | nil => intro idx0 k hk; simp at hk
  | cons q ps ih =>
    intro idx0 k hk hmd
    cases k with
    | zero =>
      simp only [List.getElem_cons_zero, Nat.add_zero] at hmd
      unfold pageOutOf at hmd
      have happ : (A.outputGiven && !(attemptLoop (A.inferOracle q)
          (postInfer A dict q) (pagePath A q) q idx0 max_retries 1).markdown.isEmpty)
          = true := by
        simp [hout, List.isEmpty_iff, hmd]
      simp only [processPages, if_pos happ, List.mem_append, Nat.add_zero]
      left; right
      exact List.mem_singleton.mpr rfl
    | succ k =>
      simp only [List.getElem_cons_succ] at hmd
      have := ih (idx0 + 1) k (by simpa using Nat.lt_of_succ_lt_succ hk)
        (by rw [show idx0 + 1 + k = idx0 + (k + 1) by omega]; exact hmd)
      simp only [processPages, List.mem_append]
      right
      rw [show idx0 + (k + 1) = idx0 + 1 + k by omega]
      exact this

/-- **C4** (confirmed).  With a valid run (existing input, output given,
valid range) and a page `p` of the range whose embedded-graphic extraction
fails for every image (the per-image `try/except` of
`extract_images_from_page`), the run is not aborted, page `p` contributes no
entry to the extraction dictionary (zero graphics), extraction is invoked
exactly once for `p` (never retried), the inference call for `p` still
happens, and (given its inference results are non-empty, as in C1) `p`'s
section is still appended at its position in the range. -/
theorem C4_extraction_failure_nonfatal (A : ConvArgs) (c0 : List Char)
    (hex : A.pdfExists = true) (hout : A.outputGiven = true)
    (hval : validRange A.totalPages A.first? A.last?)
    (p : Nat) (hp : p ∈ runPages A)
    (hfail : ∀ r ∈ A.extractOracle p, ∃ m, r = .failed m)
    (hne : ∀ a md, A.inferOracle p a = .ok md → md ≠ []) :
    (∃ k n, (convert_pdf_to_markdown A c0).outcome = .ok (k, n)) ∧
    (convert_pdf_to_markdown A c0).extractedDict.lookup p = none ∧
    (convert_pdf_to_markdown A c0).events.count (.extractCall p) = 1 ∧
    Event.inferAttempt p 1 ∈ (convert_pdf_to_markdown A c0).events ∧
    Event.sectionAppend (p + 1 - (A.first?.getD 1).toNat) ∈
      (convert_pdf_to_markdown A c0).events := by
  have hmetas : extractMetas A p = [] := by
    unfold extractMetas
    rw [extractGo_all_failed p (imagesDirPath A) Config.MIN_IMAGE_WIDTH
      Config.MIN_IMAGE_HEIGHT (A.extractOracle p) hfail 1]
  rw [convert_eq_ok A c0 hex hout hval]
  refine ⟨⟨_, _, rfl⟩, phase2Dict_lookup_none A p hmetas (runPages A), ?_, ?_, ?_⟩
  · simp only [List.count_append]
    have z1 : ((runPages A).map Event.raster).count (Event.extractCall p) = 0 := by
      rw [List.count_eq_zero]
      intro h
      obtain ⟨q, _, hq⟩ := List.mem_map.mp h
      simp at hq
    have z3 : ([Event.headerWrite] : List Event).count (Event.extractCall p) = 0 := by
      simp
    have z4 : ((processPages A (phase2Dict A (runPages A)) (runPages A) 1).events).count
        (Event.extractCall p) = 0 := by
      rw [List.count_eq_zero]
      intro h
      rcases processPages_events_shape A (phase2Dict A (runPages A)) (runPages A) 1 _ h
        with ⟨q, b, hq⟩ | ⟨s, hq⟩ | ⟨i, hq⟩ <;> simp at hq
    rw [z1, z3, z4, count_extractCall_phase2Evs_one A p (runPages A)
      (nodup_pagesOf A.totalPages A.first? A.last?) hp]
  · simp only [List.mem_append]
    right
    exact processPages_inferAttempt_mem A (phase2Dict A (runPages A)) p (runPages A) 1 hp
  · simp only [List.mem_append]
    right
    obtain ⟨k, hk, rfl⟩ : ∃ k, k < (runPages A).length ∧
        (A.first?.getD 1).toNat + k = p := by
      simp only [runPages, pagesOf, List.mem_map, List.mem_range] at hp
      obtain ⟨k, hk, hkp⟩ := hp
      exact ⟨k, by simpa [runPages, length_pagesOf] using hk, hkp⟩
    have hidx : (A.first?.getD 1).toNat + k + 1 - (A.first?.getD 1).toNat = 1 + k := by
      omega
    rw [hidx]
    refine processPages_sectionAppend_mem A (phase2Dict A (runPages A)) hout
      (runPages A) 1 k hk ?_
    have hget : (runPages A)[k] = (A.first?.getD 1).toNat + k := by
      simp [runPages, pagesOf]
    rw [hget]
    unfold pageOutOf
    exact attemptLoop_markdown_ne_nil _ _ _ _ _ max_retries 1 (by decide)
      (fun b md h => hne b md h) (fun md h => postInfer_ne_nil A _ _ md h)

/-- Witness for C4 at `C4args`, page 1. -/
theorem C4_extraction_failure_nonfatal_witness :
    (∃ k n, (convert_pdf_to_markdown C4args "".toList).outcome = .ok (k, n)) ∧
    (convert_pdf_to_markdown C4args "".toList).extractedDict.lookup 1 = none ∧
    (convert_pdf_to_markdown C4args "".toList).events.count (.extractCall 1) = 1 ∧
    Event.inferAttempt 1 1 ∈ (convert_pdf_to_markdown C4args "".toList).events ∧
    Event.sectionAppend (1 + 1 - (C4args.first?.getD 1).toNat) ∈
      (convert_pdf_to_markdown C4args "".toList).events :=
  C4_extraction_failure_nonfatal C4args "".toList rfl rfl (by decide) 1 (by decide)
    (fun r hr => by
      simp only [C4args, List.mem_singleton] at hr
      exact ⟨_, hr⟩)
    (fun a md h => by
      simp only [C4args] at h
      cases h
      decide)

/-! ## Claim C5: failure records and the failure ledger -/

theorem processPages_failed_eq (A : ConvArgs) (dict : List (Nat × List ImgMeta)) :
    ∀ ps idx0, (processPages A dict ps idx0).failed =
      (List.zipWith (fun p i => (pageOutOf A dict p i).failure.toList) ps
        (List.range' idx0 ps.length)).flatten := by
  intro ps
  induction ps with
  | nil => intro idx0; rfl
  | cons p ps ih =>
    intro idx0
    simp only [processPages, List.length_cons, List.range'_succ, List.zipWith_cons_cons,
      List.flatten_cons]
    rw [← ih (idx0 + 1)]
    rfl

theorem attemptLoop_exhausted_eq (infer : Nat → Except (List Char) (List Char))
    (post : List Char → List Char) (ip : List Char) (page idx : Nat)
    (e : Nat → List Char) (h1 : infer 1 = .error (e 1)) (h2 : infer 2 = .error (e 2))
    (h3 : infer 3 = .error (e 3)) :
    (attemptLoop infer post ip page idx max_retries 1).failure =
      some ⟨idx, ip, e 3⟩ := by
  show (attemptLoop infer post ip page idx 3 1).failure = _
  simp [attemptLoop, h1, h2, h3]

theorem attemptLoop_failure_iff (infer : Nat → Except (List Char) (List Char))
    (post : List Char → List Char) (ip : List Char) (page idx : Nat) :
    ((attemptLoop infer post ip page idx max_retries 1).failure).isSome ↔
      ((∃ e, infer 1 = .error e) ∧ (∃ e, infer 2 = .error e) ∧
       (∃ e, infer 3 = .error e)) := by
  show ((attemptLoop infer post ip page idx 3 1).failure).isSome ↔ _
  cases h1 : infer 1 <;> cases h2 : infer 2 <;> cases h3 : infer 3 <;>
    simp [attemptLoop, h1, h2, h3]

/-- **C5** (corrected).  On a valid run with an output path: the failure
ledger is written iff at least one page failed, and then it is exactly the
in-order list of the per-page failure records (each page contributes its
record exactly where it was created, and nothing later changes it); a page's
failure record exists iff all `max_retries` attempts failed, and it then
contains the page's 1-based **position within the requested range** (`idx`,
not the document page ordinal — see the counterexample), the page's
temporary raster path, and the error of the last attempt. -/
theorem C5_failure_record_and_ledger (A : ConvArgs) (c0 : List Char)
    (hex : A.pdfExists = true) (hout : A.outputGiven = true)
    (hval : validRange A.totalPages A.first? A.last?) :
    ((convert_pdf_to_markdown A c0).failedLedger =
      if (convert_pdf_to_markdown A c0).failedPages.isEmpty then none
      else some (convert_pdf_to_markdown A c0).failedPages) ∧
    ((convert_pdf_to_markdown A c0).failedPages =
      (List.zipWith (fun p i =>
          (pageOutOf A (phase2Dict A (runPages A)) p i).failure.toList)
        (runPages A) (List.range' 1 (runPages A).length)).flatten) ∧
    (∀ p idx (e : Nat → List Char),
      A.inferOracle p 1 = .error (e 1) → A.inferOracle p 2 = .error (e 2) →
      A.inferOracle p 3 = .error (e 3) →
      (pageOutOf A (phase2Dict A (runPages A)) p idx).failure =
        some ⟨idx, pagePath A p, e 3⟩) ∧
    (∀ p idx, ((pageOutOf A (phase2Dict A (runPages A)) p idx).failure).isSome ↔
      ((∃ e, A.inferOracle p 1 = .error e) ∧ (∃ e, A.inferOracle p 2 = .error e) ∧
       (∃ e, A.inferOracle p 3 = .error e))) := by
  rw [convert_eq_ok A c0 hex hout hval]
  refine ⟨rfl, processPages_failed_eq A (phase2Dict A (runPages A)) (runPages A) 1,
    ?_, ?_⟩
  · intro p idx e h1 h2 h3
    exact attemptLoop_exhausted_eq (A.inferOracle p) _ (pagePath A p) p idx e h1 h2 h3
  · intro p idx
    exact attemptLoop_failure_iff (A.inferOracle p) _ (pagePath A p) p idx

/-- Witness for C5 at `C5args`. -/
theorem C5_failure_record_and_ledger_witness :
    ((convert_pdf_to_markdown C5args "".toList).failedLedger =
      if (convert_pdf_to_markdown C5args "".toList).failedPages.isEmpty then none
      else some (convert_pdf_to_markdown C5args "".toList).failedPages) ∧
    ((convert_pdf_to_markdown C5args "".toList).failedPages =
      (List.zipWith (fun p i =>
          (pageOutOf C5args (phase2Dict C5args (runPages C5args)) p i).failure.toList)
        (runPages C5args) (List.range' 1 (runPages C5args).length)).flatten) ∧
    (∀ p idx (e : Nat → List Char),
      C5args.inferOracle p 1 = .error (e 1) → C5args.inferOracle p 2 = .error (e 2) →
      C5args.inferOracle p 3 = .error (e 3) →
      (pageOutOf C5args (phase2Dict C5args (runPages C5args)) p idx).failure =
        some ⟨idx, pagePath C5args p, e 3⟩) ∧
    (∀ p idx,
      ((pageOutOf C5args (phase2Dict C5args (runPages C5args)) p idx).failure).isSome ↔
      ((∃ e, C5args.inferOracle p 1 = .error e) ∧
       (∃ e, C5args.inferOracle p 2 = .error e) ∧
       (∃ e, C5args.inferOracle p 3 = .error e))) :=
  C5_failure_record_and_ledger C5args "".toList rfl rfl (by decide)

/-- Counterexample to C5 as stated: the only page processed (and failed) is
document page 2, yet its failure record stores `page_num = 1` — the
enumeration index within the range, not the page ordinal. -/
theorem C5_counterexample :
    runPages C5cexArgs = [2] ∧
    (convert_pdf_to_markdown C5cexArgs "".toList).failedPages.map
      FailRec.page_num = [1] ∧
    (1 : Nat) ≠ 2 := by
  refine ⟨by decide, by decide, by decide⟩

/-! ## Claim C6: the minimum-size filter -/

theorem extractGo_min_bounds (page_num : Nat) (dir : List Char) (mw mh : Nat)
    (rs : List ExtractRes) : ∀ i,
    (∀ m ∈ (extractGo page_num dir mw mh rs i).1, mw ≤ m.width ∧ mh ≤ m.height) ∧
    (∀ q fn w h, Event.imgWrite q fn w h ∈ (extractGo page_num dir mw mh rs i).2 →
      mw ≤ w ∧ mh ≤ h) := by
  induction rs with
  | nil =>
    intro i
    refine ⟨?_, ?_⟩
    · intro m hm
      simp [extractGo] at hm
    · intro q fn w h hw
      simp [extractGo] at hw
  | cons r rs ih =>
    intro i
    cases r with
    | failed m => simpa only [extractGo] using ih (i + 1)
    | noBase => simpa only [extractGo] using ih (i + 1)
    | ok size ext w h =>
      by_cases hs : w < mw ∨ h < mh
      · simpa only [extractGo, if_pos hs] using ih (i + 1)
      · refine ⟨?_, ?_⟩
        · intro m hm
          simp only [extractGo, if_neg hs, List.mem_cons] at hm
          rcases hm with rfl | hm
          · exact show mw ≤ w ∧ mh ≤ h from ⟨by omega, by omega⟩
          · exact (ih (i + 1)).1 m hm
        · intro q fn w' h' hw
          simp only [extractGo, if_neg hs, List.mem_cons] at hw
          rcases hw with heq | hw
          · rw [Event.imgWrite.injEq] at heq
            obtain ⟨-, -, rfl, rfl⟩ := heq
            exact ⟨by omega, by omega⟩
          · exact (ih (i + 1)).2 q fn w' h' hw

theorem imgWrite_mem_phase2Evs (A : ConvArgs) (ps : List Nat) (q : Nat)
    (fn : List Char) (w h : Nat)
    (hw : Event.imgWrite q fn w h ∈ phase2Evs A ps) :
    ∃ p ∈ ps, Event.imgWrite q fn w h ∈ extractEvs A p := by
  simp only [phase2Evs, List.mem_flatMap] at hw
  obtain ⟨p, hp, hin⟩ := hw
  simp only [List.mem_cons] at hin
  rcases hin with h1 | h1 | h1
  · simp at h1
  · simp at h1
  · exact ⟨p, hp, h1⟩

/-- **C6** (confirmed).  First conjunct: whenever `extract_images_from_page`
succeeds, every returned metadata entry and every image written to disk has
width and height at least the configured minima.  Second conjunct: on a
valid run, every entry of the image-metadata ledger and every image-write
event in the trace satisfies the configured minima
(`MIN_IMAGE_WIDTH`/`MIN_IMAGE_HEIGHT`); graphics below the threshold are
never materialized anywhere. -/
theorem C6_min_size_never_materialized :
    (∀ (docPages : Nat) (oracle : Nat → List ExtractRes) (p : Nat) (dir : List Char)
      (mw mh : Nat) (ms : List ImgMeta) (evs : List Event),
      extract_images_from_page docPages oracle p dir mw mh = .ok (ms, evs) →
      (∀ m ∈ ms, mw ≤ m.width ∧ mh ≤ m.height) ∧
      (∀ q fn w h, Event.imgWrite q fn w h ∈ evs → mw ≤ w ∧ mh ≤ h)) ∧
    (∀ (A : ConvArgs) (c0 : List Char), A.pdfExists = true → A.outputGiven = true →
      validRange A.totalPages A.first? A.last? →
      (∀ L, (convert_pdf_to_markdown A c0).imagesLedger = some L →
        ∀ m ∈ L.images, Config.MIN_IMAGE_WIDTH ≤ m.width ∧
          Config.MIN_IMAGE_HEIGHT ≤ m.height) ∧
      (∀ q fn w h, Event.imgWrite q fn w h ∈ (convert_pdf_to_markdown A c0).events →
        Config.MIN_IMAGE_WIDTH ≤ w ∧ Config.MIN_IMAGE_HEIGHT ≤ h)) := by
  have hgo := extractGo_min_bounds
  constructor
  · intro docPages oracle p dir mw mh ms evs hok
    unfold extract_images_from_page at hok
    by_cases hb : p < 1 ∨ docPages < p
    · rw [if_pos hb] at hok; cases hok
    · rw [if_neg hb, Except.ok.injEq] at hok
      have h1 : ms = (extractGo p dir mw mh (oracle p) 1).1 := by rw [hok]
      have h2 : evs = (extractGo p dir mw mh (oracle p) 1).2 := by rw [hok]
      subst h1
      subst h2
      exact hgo p dir mw mh (oracle p) 1
  · intro A c0 hex hout hval
    have hled : (convert_pdf_to_markdown A c0).imagesLedger =
        (if (phase2Dict A (runPages A)).isEmpty then none
         else some (save_image_metadata A.pdfStem A.nowIso
           (phase2Dict A (runPages A)))) := by
      rw [convert_eq_ok A c0 hex hout hval]
    have hevs : (convert_pdf_to_markdown A c0).events =
        (runPages A).map Event.raster ++ phase2Evs A (runPages A) ++
        [.headerWrite] ++
        (processPages A (phase2Dict A (runPages A)) (runPages A) 1).events := by
      rw [convert_eq_ok A c0 hex hout hval]
    constructor
    · intro L hL m hm
      rw [hled] at hL
      by_cases hde : (phase2Dict A (runPages A)).isEmpty
      · rw [if_pos hde] at hL; cases hL
      · rw [if_neg hde] at hL
        injection hL with hL
        subst hL
        simp only [save_image_metadata, List.mem_flatten, List.mem_map] at hm
        obtain ⟨l, ⟨pr, hpr, rfl⟩, hml⟩ := hm
        simp only [phase2Dict, List.mem_filterMap] at hpr
        obtain ⟨p, _, hp⟩ := hpr
        by_cases hme : (extractMetas A p).isEmpty
        · rw [if_pos hme] at hp; cases hp
        · rw [if_neg hme] at hp
          injection hp with hp
          rw [← hp] at hml
          exact (hgo _ (imagesDirPath A) Config.MIN_IMAGE_WIDTH
            Config.MIN_IMAGE_HEIGHT (A.extractOracle _) 1).1 m hml
    · intro q fn w h hw
      rw [hevs] at hw
      simp only [List.mem_append] at hw
      rcases hw with ((h1 | h1) | h1) | h1
      · obtain ⟨p, _, hp⟩ := List.mem_map.mp h1
        simp at hp
      · obtain ⟨p, _, hp⟩ := imgWrite_mem_phase2Evs A (runPages A) q fn w h h1
        exact (hgo p (imagesDirPath A) Config.MIN_IMAGE_WIDTH
          Config.MIN_IMAGE_HEIGHT (A.extractOracle p) 1).2 q fn w h hp
      · simp at h1
      · rcases processPages_events_shape A (phase2Dict A (runPages A)) (runPages A) 1
          _ h1 with ⟨p', b, hp⟩ | ⟨s, hp⟩ | ⟨i, hp⟩ <;> simp at hp

/-- Witness for C6: a concrete extraction keeping one 150x120 image. -/
theorem C6_min_size_never_materialized_witness :
    Config.MIN_IMAGE_WIDTH ≤
      (⟨"page_001_img_001.png".toList, "d/page_001_img_001.png".toList,
        150, 120, 2048, "png".toList, 1, 1⟩ : ImgMeta).width ∧
    Config.MIN_IMAGE_HEIGHT ≤
      (⟨"page_001_img_001.png".toList, "d/page_001_img_001.png".toList,
        150, 120, 2048, "png".toList, 1, 1⟩ : ImgMeta).height :=
  (C6_min_size_never_materialized.1 2 (fun _ => [.ok 2048 "png".toList 150 120]) 1
    "d".toList Config.MIN_IMAGE_WIDTH Config.MIN_IMAGE_HEIGHT _ _ rfl).1
    ⟨"page_001_img_001.png".toList, "d/page_001_img_001.png".toList,
      150, 120, 2048, "png".toList, 1, 1⟩ (by decide)

/-! ## Claim C10: ledger summary counts -/

theorem phase2Dict_length (A : ConvArgs) : ∀ ps, (phase2Dict A ps).length =
    (ps.filter fun p => !(extractMetas A p).isEmpty).length := by
  intro ps
  induction ps with
  | nil => rfl
  | cons p ps ih =>
    simp only [phase2Dict, List.filterMap_cons, List.filter_cons]
    by_cases hme : (extractMetas A p).isEmpty
    · rw [if_pos hme]
      simp only [hme, Bool.not_true, if_false]
      exact ih
    · rw [if_neg hme]
      simp only [Bool.not_eq_true] at hme
      simp only [hme, Bool.not_false, if_true, List.length_cons]
      rw [← ih]
      rfl

theorem phase2Dict_flatten (A : ConvArgs) : ∀ ps,
    ((phase2Dict A ps).map fun pr => pr.2).flatten =
      (ps.map fun p => extractMetas A p).flatten := by
  intro ps
  induction ps with
  | nil => rfl
  | cons p ps ih =>
    simp only [phase2Dict, List.filterMap_cons, List.map_cons, List.flatten_cons]
    by_cases hme : (extractMetas A p).isEmpty
    · rw [if_pos hme, List.isEmpty_iff.mp hme]
      rw [List.nil_append]
      exact ih
    · rw [if_neg hme]
      simp only [List.map_cons, List.flatten_cons]
      rw [← ih]
      rfl

/-- **C10** (confirmed).  On a valid run, when the image-metadata ledger is
written, its `total_pages` equals the number of requested pages that yielded
at least one kept graphic (the pages of the range are pairwise distinct, so
this is a count of distinct pages; it is neither the count of processed
pages nor the document's page count), and its `total_images` equals both the
length of its flattened `images` list and the sum of the per-page kept
graphic counts. -/
theorem C10_ledger_counts (A : ConvArgs) (c0 : List Char)
    (hex : A.pdfExists = true) (hout : A.outputGiven = true)
    (hval : validRange A.totalPages A.first? A.last?) :
    ∀ L, (convert_pdf_to_markdown A c0).imagesLedger = some L →
      L.total_pages = ((runPages A).filter fun p => !(extractMetas A p).isEmpty).length ∧
      L.total_images = L.images.length ∧
      L.total_images = ((runPages A).map fun p => (extractMetas A p).length).sum := by
  have hled : (convert_pdf_to_markdown A c0).imagesLedger =
      (if (phase2Dict A (runPages A)).isEmpty then none
       else some (save_image_metadata A.pdfStem A.nowIso
         (phase2Dict A (runPages A)))) := by
    rw [convert_eq_ok A c0 hex hout hval]
  intro L hL
  rw [hled] at hL
  by_cases hde : (phase2Dict A (runPages A)).isEmpty
  · rw [if_pos hde] at hL; cases hL
  · rw [if_neg hde] at hL
    injection hL with hL
    subst hL
    refine ⟨phase2Dict_length A (runPages A), rfl, ?_⟩
    show (((phase2Dict A (runPages A)).map fun pr => pr.2).flatten).length = _
    rw [phase2Dict_flatten A (runPages A), List.length_flatten, List.map_map]
    rfl

/-- Witness for C10 at `C10args`. -/
theorem C10_ledger_counts_witness :
    (save_image_metadata C10args.pdfStem C10args.nowIso
      (phase2Dict C10args (runPages C10args))).total_pages =
      ((runPages C10args).filter fun p => !(extractMetas C10args p).isEmpty).length ∧
    (save_image_metadata C10args.pdfStem C10args.nowIso
      (phase2Dict C10args (runPages C10args))).total_images =
      (save_image_metadata C10args.pdfStem C10args.nowIso
        (phase2Dict C10args (runPages C10args))).images.length ∧
    (save_image_metadata C10args.pdfStem C10args.nowIso
      (phase2Dict C10args (runPages C10args))).total_images =
      ((runPages C10args).map fun p => (extractMetas C10args p).length).sum :=
  C10_ledger_counts C10args "".toList rfl rfl (by decide)
    (save_image_metadata C10args.pdfStem C10args.nowIso
      (phase2Dict C10args (runPages C10args))) (by decide)

/-! ## Matcher lemmas for the placeholder pattern -/

theorem dropPrefixQ_self (p : List Char) : ∀ r, dropPrefixQ p (p ++ r) = some r := by
  induction p with
  | nil => intro r; rfl
  | cons c p ih => intro r; simp [dropPrefixQ, ih]

theorem dropPrefixQ_eq_some (p : List Char) :
    ∀ s r, dropPrefixQ p s = some r ↔ s = p ++ r := by
  induction p with
  | nil =>
    intro s r
    constructor
    · intro h; cases h; rfl
    · intro h; cases h; rfl
  | cons c p ih =>
    intro s r
    cases s with
    | nil => simp [dropPrefixQ]
    | cons d s =>
      simp only [dropPrefixQ]
      by_cases hd : d = c
      · subst hd
        rw [if_pos rfl, ih]
        simp
      · rw [if_neg hd]
        simp [hd]

theorem splitAtRB_spec (a : List Char) (h : ']' ∉ a) :
    ∀ r, splitAtRB (a ++ ']' :: r) = some (a, r) := by
  induction a with
  | nil => intro r; simp [splitAtRB]
  | cons c a ih =>
    intro r
    have hc : ¬ c = ']' := fun hcc => h (hcc ▸ List.mem_cons_self c a)
    simp only [List.cons_append, splitAtRB, if_neg hc]
    rw [show a.append (']' :: r) = a ++ ']' :: r from rfl,
      ih (fun hm => h (List.mem_cons_of_mem c hm)) r]
    rfl

theorem wsSplit_append (s : List Char) : (wsSplit s).1 ++ (wsSplit s).2 = s := by
  induction s with
  | nil => rfl
  | cons c s ih =>
    by_cases hc : isWs c
    · simp [wsSplit, hc, ih]
    · simp [wsSplit, hc]

theorem wsSplit_not_ws (c : Char) (s : List Char) (h : isWs c = false) :
    wsSplit (c :: s) = ([], c :: s) := by
  simp [wsSplit, h]

theorem probeComment_none_of_no_lt (s : List Char) (h : '<' ∉ s) :
    probeComment s = none := by
  have hdp : dropPrefixQ "<!--".toList (wsSplit s).2 = none := by
    cases hw : (wsSplit s).2 with
    | nil => rfl
    | cons d t =>
      have hd : d ∈ s := by
        rw [← wsSplit_append s, hw]
        exact List.mem_append_right _ (List.mem_cons_self d t)
      have hdne : ¬ d = '<' := fun hdd => h (hdd ▸ hd)
      simp [dropPrefixQ, hdne]
  simp only [probeComment, hdp]

theorem matchAt_none_of_head (c : Char) (cs : List Char) (h : c ≠ '!') :
    matchAt (c :: cs) = none := by
  unfold matchAt
  simp [dropPrefixQ, h]

theorem matchAt_bang_not_lb (d : Char) (cs : List Char) (h : d ≠ '[') :
    matchAt ('!' :: d :: cs) = none := by
  unfold matchAt
  simp [dropPrefixQ, h]

theorem matchAt_ph (alt rest : List Char) (h1 : ']' ∉ alt) (h2 : '<' ∉ rest) :
    matchAt (phText alt ++ rest) = some ⟨alt, none, phText alt, rest⟩ := by
  have hsh : phText alt ++ rest =
      "![".toList ++ (alt ++ ']' :: ("(IMAGE_PLACEHOLDER)".toList ++ rest)) := by
    simp [phText, List.append_assoc]
  rw [hsh]
  simp only [matchAt, dropPrefixQ_self, splitAtRB_spec alt h1,
    probeComment_none_of_no_lt rest h2]

theorem matchAt_isSome_of_ph_lead (alt s t : List Char) (h1 : ']' ∉ alt)
    (hpre : dropPrefixQ (phText alt) s = some t) : (matchAt s).isSome = true := by
  rw [dropPrefixQ_eq_some] at hpre
  subst hpre
  have hsh : phText alt ++ t =
      "![".toList ++ (alt ++ ']' :: ("(IMAGE_PLACEHOLDER)".toList ++ t)) := by
    simp [phText, List.append_assoc]
  rw [hsh]
  simp only [matchAt, dropPrefixQ_self, splitAtRB_spec alt h1]
  cases probeComment t with
  | none => rfl
  | some pr => rfl

/-! ## Safe blocks: regions in which no match can start -/

theorem blockSafe_nil : BlockSafe [] := by
  intro x y hxy hy b
  rcases List.append_eq_nil.mp hxy.symm with ⟨-, h2⟩
  exact absurd h2 hy

theorem blockSafe_cons_of (c : Char) (t : List Char)
    (hc : ∀ b, matchAt (c :: (t ++ b)) = none) (ht : BlockSafe t) :
    BlockSafe (c :: t) := by
  intro x y hxy hy b
  cases x with
  | nil =>
    simp only [List.nil_append] at hxy
    subst hxy
    simpa using hc b
  | cons d x =>
    simp only [List.cons_append, List.cons.injEq] at hxy
    exact ht x y hxy.2 hy b

theorem blockSafe_cons (c : Char) (t : List Char) (hc : c ≠ '!')
    (ht : BlockSafe t) : BlockSafe (c :: t) :=
  blockSafe_cons_of c t (fun b => matchAt_none_of_head c (t ++ b) hc) ht

theorem blockSafe_noBang (a : List Char) (h : ∀ c ∈ a, c ≠ '!') : BlockSafe a := by
  induction a with
  | nil => exact blockSafe_nil
  | cons c t ih =>
    exact blockSafe_cons c t (h c (List.mem_cons_self c t))
      (ih fun d hd => h d (List.mem_cons_of_mem c hd))

theorem blockSafe_append_noBang (a t : List Char) (h : ∀ c ∈ a, c ≠ '!')
    (ht : BlockSafe t) : BlockSafe (a ++ t) := by
  induction a with
  | nil => exact ht
  | cons c a ih =>
    rw [List.cons_append]
    exact blockSafe_cons c (a ++ t) (h c (List.mem_cons_self c a))
      (ih fun d hd => h d (List.mem_cons_of_mem c hd))

theorem blockSafe_append (a b : List Char) (ha : BlockSafe a) (hb : BlockSafe b) :
    BlockSafe (a ++ b) := by
  intro x y hxy hy bb
  rcases List.append_eq_append_iff.mp hxy with ⟨a', hx, hb'⟩ | ⟨c', ha', hy'⟩
  · exact hb a' y hb' hy bb
  · cases c' with
    | nil =>
      rw [List.nil_append] at hy'
      exact hb [] y (by rw [hy']; rfl) hy bb
    | cons d dt =>
      rw [hy', List.append_assoc]
      exact ha x (d :: dt) ha' (by simp) (b ++ bb)

theorem searchFrom_cons_none (c : Char) (cs : List Char)
    (h : matchAt (c :: cs) = none) : searchFrom (c :: cs) = searchFrom cs := by
  simp [searchFrom, h]

theorem searchFrom_append_blockSafe (a : List Char) (ha : BlockSafe a) :
    ∀ b, searchFrom (a ++ b) = searchFrom b := by
  induction a with
  | nil => intro b; rfl
  | cons c t ih =>
    intro b
    rw [List.cons_append, searchFrom_cons_none c (t ++ b)
      (ha [] (c :: t) rfl (by simp) b)]
    exact ih (fun x y hxy hy bb => ha (c :: x) y (by rw [hxy]; rfl) hy bb) b

theorem searchFrom_noBang (s : List Char) (h : ∀ c ∈ s, c ≠ '!') :
    searchFrom s = none := by
  induction s with
  | nil => rfl
  | cons c t ih =>
    rw [searchFrom_cons_none c t (matchAt_none_of_head c t (h c (List.mem_cons_self c t)))]
    exact ih fun d hd => h d (List.mem_cons_of_mem c hd)

theorem searchFrom_ph (alt rest : List Char) (h1 : ']' ∉ alt) (h2 : '<' ∉ rest) :
    searchFrom (phText alt ++ rest) = some ⟨alt, none, phText alt, rest⟩ := by
  have hm := matchAt_ph alt rest h1 h2
  obtain ⟨tl, htl⟩ : ∃ tl, phText alt ++ rest = '!' :: tl :=
    ⟨'[' :: (alt ++ ("](IMAGE_PLACEHOLDER)".toList ++ rest)),
      by simp [phText, List.append_assoc]⟩
  rw [htl] at hm ⊢
  conv_lhs => rw [searchFrom]
  rw [hm]

theorem replaceOnce_append_spec (g new suf : List Char) (hg : g ≠ []) :
    ∀ pre, (∀ x y, pre = x ++ y → y ≠ [] →
      dropPrefixQ g (y ++ (g ++ suf)) = none) →
    replaceOnce (pre ++ (g ++ suf)) g new = pre ++ (new ++ suf) := by
  intro pre
  induction pre with
  | nil =>
    intro _
    simp only [List.nil_append]
    cases g with
    | nil => exact absurd rfl hg
    | cons c gt =>
      rw [List.cons_append, replaceOnce]
      rw [show c :: (gt ++ suf) = (c :: gt) ++ suf from rfl, dropPrefixQ_self (c :: gt) suf]
  | cons c pre ih =>
    intro h
    rw [List.cons_append, replaceOnce]
    rw [show c :: (pre ++ (g ++ suf)) = (c :: pre) ++ (g ++ suf) from rfl,
      h [] (c :: pre) rfl (by simp)]
    rw [ih fun x y hxy hy => h (c :: x) y (by rw [hxy]; rfl) hy]
    rfl

/-! ## Marker-freedom -/

theorem mf_nil : MF [] := by
  intro h
  have := List.eq_nil_of_infix_nil h
  simp [marker] at this

theorem mf_of_no_I (s : List Char) (h : 'I' ∉ s) : MF s := fun hinf =>
  h (hinf.subset (by decide : 'I' ∈ marker))

theorem mf_append (a b : List Char) (ha : MF a) (hb : MF b)
    (hsep : (∀ c, a.getLast? = some c → c ∉ marker) ∨
            (∀ c, b.head? = some c → c ∉ marker)) : MF (a ++ b) := by
  rintro ⟨x, y, hxy⟩
  rcases List.append_eq_append_iff.mp hxy with ⟨a', ha', hy'⟩ | ⟨c', hxm, hb'⟩
  · exact ha ⟨x, a', ha'.symm⟩
  · rcases List.append_eq_append_iff.mp hxm with ⟨e, hae, hme⟩ | ⟨f, hxf, hcf⟩
    · cases e with
      | nil =>
        rw [List.nil_append] at hme
        exact hb ⟨[], y, by rw [hb', ← hme]; rfl⟩
      | cons e0 et =>
        cases c' with
        | nil =>
          rw [List.append_nil] at hme
          exact ha ⟨x, [], by rw [hae, ← hme, List.append_nil]⟩
        | cons c0 ct =>
          rcases hsep with hl | hr
          · obtain ⟨w, hw⟩ : ∃ w, (e0 :: et).getLast? = some w := by
              cases hgl : (e0 :: et).getLast? with
              | none => exact absurd (List.getLast?_eq_none_iff.mp hgl) (by simp)
              | some w => exact ⟨w, rfl⟩
            have hwa : a.getLast? = some w := by
              rw [hae, List.getLast?_append_of_ne_nil x (by simp)]
              exact hw
            have hwm : w ∈ marker :=
              (List.IsPrefix.subset ⟨c0 :: ct, hme.symm⟩)
                (List.mem_of_mem_getLast? hw)
            exact hl w hwa hwm
          · have hhb : b.head? = some c0 := by rw [hb']; rfl
            have hcm : c0 ∈ marker :=
              (List.IsSuffix.subset ⟨e0 :: et, hme.symm⟩)
                (List.mem_cons_self c0 ct)
            exact hr c0 hhb hcm
    · exact hb ⟨f, y, by rw [hb', hcf]⟩

/-! ## Character facts about rendered numbers and sizes -/

theorem digitChar_isDigit (d : Nat) (h : d < 10) : (Nat.digitChar d).isDigit = true := by
  interval_cases d <;> decide

theorem toDigitsCore_digits : ∀ (fuel n : Nat) (acc : List Char),
    (∀ c ∈ acc, c.isDigit = true) →
    ∀ c ∈ Nat.toDigitsCore 10 fuel n acc, c.isDigit = true := by
  intro fuel
  induction fuel with
  | zero => intro n acc hacc c hc; exact hacc c hc
  | succ fuel ih =>
    intro n acc hacc c hc
    simp only [Nat.toDigitsCore] at hc
    have hstep : ∀ d ∈ Nat.digitChar (n % 10) :: acc, d.isDigit = true := by
      intro d hd
      rcases List.mem_cons.mp hd with rfl | hd
      · exact digitChar_isDigit (n % 10) (Nat.mod_lt n (by norm_num))
      · exact hacc d hd
    by_cases hz : n / 10 = 0
    · rw [if_pos hz] at hc
      exact hstep c hc
    · rw [if_neg hz] at hc
      exact ih (n / 10) (Nat.digitChar (n % 10) :: acc) hstep c hc

theorem natChars_isDigit (n : Nat) : ∀ c ∈ natChars n, c.isDigit = true := by
  unfold natChars Nat.toDigits
  exact toDigitsCore_digits (n + 1) n [] (by simp)

theorem fmtKB_chars (s : Nat) : ∀ c ∈ fmtKB s, c.isDigit = true ∨ c = '.' := by
  intro c hc
  simp only [fmtKB, List.mem_append, List.mem_cons] at hc
  rcases hc with hc | hc | hc
  · exact .inl (natChars_isDigit _ c hc)
  · exact .inr hc
  · exact .inl (natChars_isDigit _ c hc)

theorem marker_no_digit : ∀ c ∈ marker, c.isDigit = false ∧ c ≠ '.' := by decide

theorem natChars_not_marker (k : Nat) : ∀ c ∈ natChars k, c ∉ marker := by
  intro c hc hm
  have hd := natChars_isDigit k c hc
  rw [(marker_no_digit c hm).1] at hd
  cases hd

theorem fmtKB_not_marker (s : Nat) : ∀ c ∈ fmtKB s, c ∉ marker := by
  intro c hc hm
  rcases fmtKB_chars s c hc with hd | hd
  · rw [(marker_no_digit c hm).1] at hd
    cases hd
  · exact (marker_no_digit c hm).2 hd

theorem natChars_ne (k : Nat) (d : Char) (hd : d.isDigit = false) :
    d ∉ natChars k := by
  intro hm
  rw [natChars_isDigit k d hm] at hd
  cases hd

theorem fmtKB_ne (s : Nat) (d : Char) (hd : d.isDigit = false) (hdot : d ≠ '.') :
    d ∉ fmtKB s := by
  intro hm
  rcases fmtKB_chars s d hm with h | h
  · rw [h] at hd; cases hd
  · exact hdot h

theorem mf_natChars (k : Nat) : MF (natChars k) :=
  mf_of_no_I _ (natChars_ne k 'I' (by decide))

theorem mf_fmtKB (s : Nat) : MF (fmtKB s) :=
  mf_of_no_I _ (fmtKB_ne s 'I' (by decide) (by decide))

/-! ## Marker cannot match against a relative path -/

theorem dropPrefixQ_IP_path_none (path rest : List Char) (hsl : '/' ∈ path)
    (hmf : MF path) :
    dropPrefixQ "(IMAGE_PLACEHOLDER)".toList ('(' :: (path ++ ')' :: rest)) = none := by
  by_contra h
  obtain ⟨t, ht⟩ := Option.ne_none_iff_exists'.mp h
  rw [dropPrefixQ_eq_some] at ht
  rw [show "(IMAGE_PLACEHOLDER)".toList = '(' :: (marker ++ [')']) from rfl] at ht
  rw [List.cons_append] at ht
  injection ht with _ ht
  have hm : marker <+: path ++ ')' :: rest :=
    ⟨')' :: t, by rw [List.append_assoc] at ht; exact ht.symm⟩
  have hp : path <+: path ++ ')' :: rest := List.prefix_append path _
  rcases List.prefix_or_prefix_of_prefix hp hm with hpm | hmp
  · exact absurd (hpm.subset hsl) (by decide)
  · exact hmf hmp.isInfix

/-! ## Structured page texts for the reconciliation theorem -/

theorem mkReplacement_none_eq (alt g0 rest : List Char) (m : ImgMeta)
    (pn : Nat) (dn : List Char) :
    mkReplacement ⟨alt, none, g0, rest⟩ m pn dn = resolvedText alt m pn dn := rfl

theorem resolvedText_cons (alt : List Char) (m : ImgMeta) (pn : Nat)
    (dn : List Char) : resolvedText alt m pn dn =
    '!' :: '[' :: (alt ++ ']' :: '(' :: (relPath dn m ++ ')' :: '\n' :: '<' :: '!' ::
      '-' :: '-' :: ' ' :: (metadataText m pn ++ [' ', '-', '-', '>']))) := by
  simp [resolvedText, List.append_assoc]

/-! ## Separator helpers for marker-freedom -/

theorem head_sep_const (b : List Char) (d : Char) (hd : b.head? = some d)
    (hdm : d ∉ marker) : ∀ c, b.head? = some c → c ∉ marker := by
  intro c hc
  rw [hd] at hc
  cases hc
  exact hdm

theorem last_sep_const (a : List Char) (d : Char) (hd : a.getLast? = some d)
    (hdm : d ∉ marker) : ∀ c, a.getLast? = some c → c ∉ marker := by
  intro c hc
  rw [hd] at hc
  cases hc
  exact hdm

theorem head_sep_all (b : List Char) (h : ∀ c ∈ b, c ∉ marker) :
    ∀ c, b.head? = some c → c ∉ marker :=
  fun c hc => h c (List.mem_of_mem_head? hc)

/-! ## Facts about the pieces of a resolved placeholder -/

theorem relPath_no_bang (dn : List Char) (m : ImgMeta) (hdn : '!' ∉ dn)
    (hfn : '!' ∉ m.filename) : '!' ∉ relPath dn m := by
  intro h
  simp only [relPath, List.mem_append] at h
  rcases h with (h | h) | h
  · exact hdn h
  · simp at h
  · exact hfn h

theorem relPath_slash (dn : List Char) (m : ImgMeta) : '/' ∈ relPath dn m := by
  simp [relPath]

theorem mf_relPath (dn : List Char) (m : ImgMeta) (h1 : MF dn)
    (h2 : MF m.filename) : MF (relPath dn m) := by
  unfold relPath
  refine mf_append _ _ (mf_append _ _ h1 (by decide) ?sep1) h2 ?sep2
  case sep1 => exact .inr (head_sep_const _ '/' rfl (by decide))
  case sep2 =>
    refine .inl (last_sep_const _ '/' ?_ (by decide))
    exact List.getLast?_append_of_ne_nil dn (by simp)

theorem metadataText_no_bang (m : ImgMeta) (pn : Nat) (hfn : '!' ∉ m.filename)
    (hfmt : '!' ∉ m.format) : '!' ∉ metadataText m pn := by
  intro h
  simp only [metadataText, List.mem_append] at h
  rcases h with ((((((((((h | h) | h) | h) | h) | h) | h) | h) | h) | h) | h) | h
  · revert h; decide
  · exact hfn h
  · revert h; decide
  · exact natChars_ne _ '!' (by decide) h
  · revert h; decide
  · exact natChars_ne _ '!' (by decide) h
  · revert h; decide
  · exact fmtKB_ne _ '!' (by decide) (by decide) h
  · revert h; decide
  · exact hfmt h
  · revert h; decide
  · exact natChars_ne _ '!' (by decide) h

theorem mf_metadataText (m : ImgMeta) (pn : Nat) (hfn : MF m.filename)
    (hfmt : MF m.format) : MF (metadataText m pn) := by
  unfold metadataText
  refine mf_append _ _ ?h11 (mf_natChars pn) (.inr (head_sep_all _ (natChars_not_marker pn)))
  case h11 =>
  refine mf_append _ _ ?h10 (by decide) (.inr (head_sep_const _ ' ' rfl (by decide)))
  case h10 =>
  refine mf_append _ _ ?h9 hfmt ?sep9
  case sep9 =>
    refine .inl (last_sep_const _ ' ' ?_ (by decide))
    exact List.getLast?_append_of_ne_nil _ (by simp)
  case h9 =>
  refine mf_append _ _ ?h8 (by decide) (.inr (head_sep_const _ 'K' rfl (by decide)))
  case h8 =>
  refine mf_append _ _ ?h7 (mf_fmtKB m.size) (.inr (head_sep_all _ (fmtKB_not_marker m.size)))
  case h7 =>
  refine mf_append _ _ ?h6 (by decide) (.inr (head_sep_const _ 'p' rfl (by decide)))
  case h6 =>
  refine mf_append _ _ ?h5 (mf_natChars m.height)
    (.inr (head_sep_all _ (natChars_not_marker m.height)))
  case h5 =>
  refine mf_append _ _ ?h4 (by decide) (.inr (head_sep_const _ 'x' rfl (by decide)))
  case h4 =>
  refine mf_append _ _ ?h3 (mf_natChars m.width)
    (.inr (head_sep_all _ (natChars_not_marker m.width)))
  case h3 =>
  refine mf_append _ _ ?h2 (by decide) (.inr (head_sep_const _ ' ' rfl (by decide)))
  case h2 =>
  refine mf_append _ _ (by decide) hfn ?sep1
  case sep1 =>
    exact .inl (last_sep_const _ ' ' rfl (by decide))

theorem blockSafe_resolvedText (alt : List Char) (m : ImgMeta) (pn : Nat)
    (dn : List Char) (haRB : ']' ∉ alt) (haB : '!' ∉ alt)
    (hfnB : '!' ∉ m.filename) (hfmtB : '!' ∉ m.format) (hdnB : '!' ∉ dn)
    (hmfp : MF (relPath dn m)) : BlockSafe (resolvedText alt m pn dn) := by
  rw [resolvedText_cons]
  have h0 : BlockSafe (metadataText m pn ++ [' ', '-', '-', '>']) :=
    blockSafe_append_noBang _ _
      (fun c hc heq => metadataText_no_bang m pn hfnB hfmtB (heq ▸ hc))
      (blockSafe_noBang _ (by decide))
  have ha1 : BlockSafe (' ' :: (metadataText m pn ++ [' ', '-', '-', '>'])) :=
    blockSafe_cons _ _ (by decide) h0
  have hb1 : BlockSafe ('-' :: ' ' :: (metadataText m pn ++ [' ', '-', '-', '>'])) :=
    blockSafe_cons _ _ (by decide) ha1
  have hc1 : BlockSafe ('-' :: '-' :: ' ' ::
      (metadataText m pn ++ [' ', '-', '-', '>'])) :=
    blockSafe_cons _ _ (by decide) hb1
  have hd1 : BlockSafe ('!' :: '-' :: '-' :: ' ' ::
      (metadataText m pn ++ [' ', '-', '-', '>'])) :=
    blockSafe_cons_of _ _ (fun b => matchAt_bang_not_lb '-' _ (by decide)) hc1
  have he1 : BlockSafe ('<' :: '!' :: '-' :: '-' :: ' ' ::
      (metadataText m pn ++ [' ', '-', '-', '>'])) :=
    blockSafe_cons _ _ (by decide) hd1
  have hf1 : BlockSafe ('\n' :: '<' :: '!' :: '-' :: '-' :: ' ' ::
      (metadataText m pn ++ [' ', '-', '-', '>'])) :=
    blockSafe_cons _ _ (by decide) he1
  have hg1 : BlockSafe (')' :: '\n' :: '<' :: '!' :: '-' :: '-' :: ' ' ::
      (metadataText m pn ++ [' ', '-', '-', '>'])) :=
    blockSafe_cons _ _ (by decide) hf1
  have hh1 : BlockSafe (relPath dn m ++ ')' :: '\n' :: '<' :: '!' :: '-' :: '-' ::
      ' ' :: (metadataText m pn ++ [' ', '-', '-', '>'])) :=
    blockSafe_append_noBang _ _
      (fun c hc heq => relPath_no_bang dn m hdnB hfnB (heq ▸ hc)) hg1
  have hi1 : BlockSafe ('(' :: (relPath dn m ++ ')' :: '\n' :: '<' :: '!' :: '-' ::
      '-' :: ' ' :: (metadataText m pn ++ [' ', '-', '-', '>']))) :=
    blockSafe_cons _ _ (by decide) hh1
  have hj1 : BlockSafe (']' :: '(' :: (relPath dn m ++ ')' :: '\n' :: '<' :: '!' ::
      '-' :: '-' :: ' ' :: (metadataText m pn ++ [' ', '-', '-', '>']))) :=
    blockSafe_cons _ _ (by decide) hi1
  have hk1 : BlockSafe (alt ++ ']' :: '(' :: (relPath dn m ++ ')' :: '\n' :: '<' ::
      '!' :: '-' :: '-' :: ' ' :: (metadataText m pn ++ [' ', '-', '-', '>']))) :=
    blockSafe_append_noBang _ _ (fun c hc heq => haB (heq ▸ hc)) hj1
  have hl1 : BlockSafe ('[' :: (alt ++ ']' :: '(' :: (relPath dn m ++ ')' :: '\n' ::
      '<' :: '!' :: '-' :: '-' :: ' ' ::
      (metadataText m pn ++ [' ', '-', '-', '>'])))) :=
    blockSafe_cons _ _ (by decide) hk1
  refine blockSafe_cons_of _ _ ?_ hl1
  intro b
  have hsh : '!' :: ('[' :: (alt ++ ']' :: '(' :: (relPath dn m ++ ')' :: '\n' ::
      '<' :: '!' :: '-' :: '-' :: ' ' ::
      (metadataText m pn ++ [' ', '-', '-', '>']))) ++ b) =
      "![".toList ++ (alt ++ ']' :: ('(' :: (relPath dn m ++ ')' ::
        (('\n' :: '<' :: '!' :: '-' :: '-' :: ' ' ::
          (metadataText m pn ++ [' ', '-', '-', '>'])) ++ b)))) := by
    simp [List.append_assoc]
  rw [hsh]
  simp only [matchAt, dropPrefixQ_self, splitAtRB_spec alt haRB,
    dropPrefixQ_IP_path_none (relPath dn m) _ (relPath_slash dn m) hmfp]

theorem mf_resolvedText (alt : List Char) (m : ImgMeta) (pn : Nat) (dn : List Char)
    (hamf : MF alt) (hfn : MF m.filename) (hfmt : MF m.format) (hdn : MF dn) :
    MF (resolvedText alt m pn dn) := by
  unfold resolvedText
  refine mf_append _ _ ?g7 (by decide) (.inr (head_sep_const _ ' ' rfl (by decide)))
  case g7 =>
  refine mf_append _ _ ?g6 (mf_metadataText m pn hfn hfmt) ?sep6
  case sep6 =>
    refine .inl (last_sep_const _ ' ' ?_ (by decide))
    exact List.getLast?_append_of_ne_nil _ (by simp)
  case g6 =>
  refine mf_append _ _ ?g5 (by decide) (.inr (head_sep_const _ '\n' rfl (by decide)))
  case g5 =>
  refine mf_append _ _ ?g4 (by decide) (.inr (head_sep_const _ ')' rfl (by decide)))
  case g4 =>
  refine mf_append _ _ ?g3 (mf_relPath dn m hdn hfn) ?sep3
  case sep3 =>
    refine .inl (last_sep_const _ '(' ?_ (by decide))
    exact List.getLast?_append_of_ne_nil _ (by simp)
  case g3 =>
  refine mf_append _ _ ?g2 (by decide) (.inr (head_sep_const _ ']' rfl (by decide)))
  case g2 =>
  exact mf_append _ _ (by decide) hamf (.inl (last_sep_const _ '[' rfl (by decide)))

/-! ## The positional-resolution specification -/

theorem renderResolved_nil_imgs (pn : Nat) (dn : List Char) :
    ∀ segs, renderResolved pn dn segs [] = renderSegs segs := by
  intro segs
  induction segs with
  | nil => rfl
  | cons s rest ih =>
    cases s with
    | lit t => simp [renderResolved, renderSegs, renderSeg, ih]
    | ph alt => simp [renderResolved, renderSegs, renderSeg, ih]

theorem renderResolved_allLit (pn : Nat) (dn : List Char) :
    ∀ segs imgs, (∀ s ∈ segs, ∃ t, s = .lit t) →
    renderResolved pn dn segs imgs = renderSegs segs := by
  intro segs
  induction segs with
  | nil => intro imgs _; rfl
  | cons s rest ih =>
    intro imgs hall
    obtain ⟨t, rfl⟩ := hall s (List.mem_cons_self s rest)
    simp [renderResolved, renderSegs, renderSeg,
      ih imgs fun q hq => hall q (List.mem_cons_of_mem _ hq)]

theorem numResolved_eq_min : ∀ (segs : List Seg) (imgs : List ImgMeta),
    numResolved segs imgs = min (phCount segs) imgs.length := by
  intro segs
  induction segs with
  | nil => intro imgs; simp [numResolved, phCount]
  | cons s rest ih =>
    intro imgs
    cases s with
    | lit t => simp [numResolved, phCount, List.countP_cons, ih imgs]
    | ph alt =>
      cases imgs with
      | nil => simp [numResolved, phCount, List.countP_cons, ih, renderResolved]
      | cons m ms =>
        simp only [numResolved, phCount, List.countP_cons, ih ms]
        simp [phCount]
        omega

theorem renderSegs_no_lt (segs : List Seg) (h : ∀ s ∈ segs, WfSeg s) :
    '<' ∉ renderSegs segs := by
  induction segs with
  | nil => simp [renderSegs]
  | cons s rest ih =>
    intro hm
    simp only [renderSegs, List.map_cons, List.flatten_cons, List.mem_append] at hm
    rcases hm with hm | hm
    · cases s with
      | lit t => exact (h _ (List.mem_cons_self _ _)).2.1 hm
      | ph alt =>
        simp only [renderSeg, phText, List.mem_append] at hm
        rcases hm with (hm | hm) | hm
        · revert hm; decide
        · exact (h _ (List.mem_cons_self _ _)).2.2.1 hm
        · revert hm; decide
    · exact ih (fun q hq => h q (List.mem_cons_of_mem _ hq)) hm

theorem phText_cons (alt : List Char) :
    phText alt = '!' :: '[' :: (alt ++ "](IMAGE_PLACEHOLDER)".toList) := rfl

theorem resolvedText_head (alt : List Char) (m : ImgMeta) (pn : Nat)
    (dn : List Char) : (resolvedText alt m pn dn).head? = some '!' := by
  rw [resolvedText_cons]
  rfl

theorem resolvedText_ne_nil (alt : List Char) (m : ImgMeta) (pn : Nat)
    (dn : List Char) : resolvedText alt m pn dn ≠ [] := by
  rw [resolvedText_cons]
  simp

theorem resolvedText_getLast (alt : List Char) (m : ImgMeta) (pn : Nat)
    (dn : List Char) : (resolvedText alt m pn dn).getLast? = some '>' := by
  unfold resolvedText
  rw [List.getLast?_append_of_ne_nil _ (by simp)]
  decide

theorem replaceOnce_not_infix (new : List Char) :
    ∀ s, ¬ marker <:+: s → replaceOnce s marker new = s := by
  intro s
  induction s with
  | nil => intro _; rfl
  | cons c cs ih =>
    intro hmf
    rw [replaceOnce]
    cases hdp : dropPrefixQ marker (c :: cs) with
    | some rest =>
      rw [dropPrefixQ_eq_some] at hdp
      exact absurd ⟨[], rest, by rw [hdp]; rfl⟩ hmf
    | none =>
      rw [ih fun hin => hmf (List.infix_cons hin)]

/-! ## One fold step at the first remaining placeholder -/

theorem replaceStep_at_ph (pn : Nat) (dn : List Char) (done pre alt : List Char)
    (rest : List Seg) (m : ImgMeta) (hbs : BlockSafe done) (hpreB : '!' ∉ pre)
    (haRB : ']' ∉ alt) (hrest : '<' ∉ renderSegs rest) :
    replaceStep pn dn (done ++ (pre ++ (phText alt ++ renderSegs rest))) m =
      done ++ (pre ++ (resolvedText alt m pn dn ++ renderSegs rest)) := by
  unfold replaceStep
  rw [searchFrom_append_blockSafe done hbs,
    searchFrom_append_blockSafe pre
      (blockSafe_noBang pre fun c hc heq => hpreB (heq ▸ hc)),
    searchFrom_ph alt _ haRB hrest]
  show replaceOnce (done ++ (pre ++ (phText alt ++ renderSegs rest)))
      (phText alt) (mkReplacement ⟨alt, none, phText alt, renderSegs rest⟩ m pn dn) = _
  rw [mkReplacement_none_eq]
  have hhead : ∀ (c : Char) (ys Z : List Char), c ∈ pre →
      dropPrefixQ (phText alt) ((c :: ys) ++ Z) = none := by
    intro c ys Z hc
    have hcne : ¬ c = '!' := fun hc' => hpreB (hc' ▸ hc)
    rw [phText_cons, List.cons_append]
    simp [dropPrefixQ, hcne]
  have htext : done ++ (pre ++ (phText alt ++ renderSegs rest)) =
      (done ++ pre) ++ (phText alt ++ renderSegs rest) := by
    rw [List.append_assoc]
  rw [htext, replaceOnce_append_spec (phText alt) (resolvedText alt m pn dn)
    (renderSegs rest) (by rw [phText_cons]; simp) (done ++ pre) ?hocc]
  · rw [List.append_assoc]
  case hocc =>
    intro x y hxy hy
    rcases List.append_eq_append_iff.mp hxy with ⟨a', hx, hp'⟩ | ⟨c', hd', hy'⟩
    · cases y with
      | nil => exact absurd rfl hy
      | cons c ys =>
        have hc : c ∈ pre := by
          rw [hp']
          exact List.mem_append_right _ (List.mem_cons_self c ys)
        exact hhead c ys _ hc
    · cases c' with
      | nil =>
        rw [List.nil_append] at hy'
        cases hpe : pre with
        | nil =>
          rw [hy', hpe] at hy
          exact absurd rfl hy
        | cons c ys =>
          rw [hy', hpe]
          exact hhead c ys _ (by rw [hpe]; exact List.mem_cons_self c ys)
      | cons d ds =>
        by_contra hne
        obtain ⟨t, ht⟩ := Option.ne_none_iff_exists'.mp hne
        have hsome := matchAt_isSome_of_ph_lead alt _ t haRB ht
        have hnone := hbs x (d :: ds) hd' (by simp)
          (pre ++ (phText alt ++ renderSegs rest))
        rw [show y ++ (phText alt ++ renderSegs rest) =
          (d :: ds) ++ (pre ++ (phText alt ++ renderSegs rest)) from by
            rw [hy', List.append_assoc]] at hsome
        rw [hnone] at hsome
        cases hsome

theorem replaceStep_no_ph (pn : Nat) (dn : List Char) (text : List Char)
    (m : ImgMeta) (hsearch : searchFrom text = none) (hmf : MF text) :
    replaceStep pn dn text m = text := by
  unfold replaceStep
  rw [hsearch]
  exact replaceOnce_not_infix (relPath dn m) text hmf

theorem renderSegs_cons (x : Seg) (r : List Seg) :
    renderSegs (x :: r) = renderSeg x ++ renderSegs r := by
  simp [renderSegs]

/-! ## The fold over graphics resolves placeholders positionally -/

theorem foldl_replaceStep_spec (pn : Nat) (dn : List Char) (hdnW : WfName dn) :
    ∀ (imgs : List ImgMeta) (segs : List Seg) (done : List Char),
    (∀ m ∈ imgs, WfMeta m) → (∀ s ∈ segs, WfSeg s) → List.Chain' SegSep segs →
    BlockSafe done → MF done → (done = [] ∨ done.getLast? = some '>') →
    List.foldl (replaceStep pn dn) (done ++ renderSegs segs) imgs =
      done ++ renderResolved pn dn segs imgs := by
  intro imgs
  induction imgs with
  | nil =>
    intro segs done _ _ _ _ _ _
    rw [List.foldl_nil, renderResolved_nil_imgs]
  | cons m ms ih =>
    intro segs done himgs hsegs hchain hbs hmf hlast
    rw [List.foldl_cons]
    have hmWf : WfMeta m := himgs m (List.mem_cons_self m ms)
    have himgs' : ∀ q ∈ ms, WfMeta q := fun q hq => himgs q (List.mem_cons_of_mem m hq)
    have hsepDone : ∀ (z : List Char), MF z → MF (done ++ z) := by
      intro z hmz
      rcases hlast with h | h
      · rw [h, List.nil_append]
        exact hmz
      · exact mf_append done z hmf hmz (.inl (last_sep_const _ '>' h (by decide)))
    cases segs with
    | nil =>
      have hstep : replaceStep pn dn (done ++ renderSegs ([] : List Seg)) m =
          done ++ renderSegs ([] : List Seg) := by
        refine replaceStep_no_ph pn dn _ m ?_ ?_
        · rw [searchFrom_append_blockSafe done hbs]
          rfl
        · show MF (done ++ [])
          rw [List.append_nil]
          exact hmf
      rw [hstep]
      exact ih [] done himgs' hsegs hchain hbs hmf hlast
    | cons s0 rest0 =>
      cases s0 with
      | ph alt =>
        have hWa : WfAlt alt := hsegs _ (List.mem_cons_self _ _)
        have hrestWf : ∀ q ∈ rest0, WfSeg q :=
          fun q hq => hsegs q (List.mem_cons_of_mem _ hq)
        have hlt : '<' ∉ renderSegs rest0 := renderSegs_no_lt rest0 hrestWf
        have hrs : renderSegs (Seg.ph alt :: rest0) =
            [] ++ (phText alt ++ renderSegs rest0) := by
          rw [renderSegs_cons]
          rfl
        rw [hrs, replaceStep_at_ph pn dn done [] alt rest0 m hbs (by simp)
          hWa.1 hlt]
        have hres := blockSafe_resolvedText alt m pn dn hWa.1 hWa.2.1
          hmWf.1.1 hmWf.2.1 hdnW.1 (mf_relPath dn m hdnW.2.2.2.2 hmWf.1.2.2.2.2)
        have hmfres := mf_resolvedText alt m pn dn hWa.2.2.2
          hmWf.1.2.2.2.2 hmWf.2.2.2.2.2 hdnW.2.2.2.2
        have hdone' : done ++ ([] ++ (resolvedText alt m pn dn ++ renderSegs rest0)) =
            (done ++ resolvedText alt m pn dn) ++ renderSegs rest0 := by
          simp [List.append_assoc]
        rw [hdone']
        rw [ih rest0 (done ++ resolvedText alt m pn dn) himgs' hrestWf hchain.tail
          (blockSafe_append done _ hbs hres)
          (hsepDone _ hmfres)
          (.inr (by
            rw [List.getLast?_append_of_ne_nil done (resolvedText_ne_nil alt m pn dn)]
            exact resolvedText_getLast alt m pn dn))]
        show (done ++ resolvedText alt m pn dn) ++ renderResolved pn dn rest0 ms =
          done ++ renderResolved pn dn (Seg.ph alt :: rest0) (m :: ms)
        rw [show renderResolved pn dn (Seg.ph alt :: rest0) (m :: ms) =
          resolvedText alt m pn dn ++ renderResolved pn dn rest0 ms from rfl]
        rw [List.append_assoc]
      | lit s =>
        have hWs : WfLit s := hsegs _ (List.mem_cons_self _ _)
        cases rest0 with
        | nil =>
          have hrs : renderSegs [Seg.lit s] = s := by
            simp [renderSegs, renderSeg]
          have hstep : replaceStep pn dn (done ++ renderSegs [Seg.lit s]) m =
              done ++ renderSegs [Seg.lit s] := by
            refine replaceStep_no_ph pn dn _ m ?_ ?_
            · rw [searchFrom_append_blockSafe done hbs, hrs]
              exact searchFrom_noBang s fun c hc heq => hWs.1 (heq ▸ hc)
            · rw [hrs]
              exact hsepDone s hWs.2.2
          rw [hstep]
          exact ih [Seg.lit s] done himgs' hsegs hchain hbs hmf hlast
        | cons s1 rest1 =>
          cases s1 with
          | lit s' =>
            exact absurd (List.chain'_cons.mp hchain).1 (by simp [SegSep])
          | ph alt =>
            have hWa : WfAlt alt := hsegs _
              (List.mem_cons_of_mem _ (List.mem_cons_self _ _))
            have hrestWf : ∀ q ∈ rest1, WfSeg q := fun q hq =>
              hsegs q (List.mem_cons_of_mem _ (List.mem_cons_of_mem _ hq))
            have hlt : '<' ∉ renderSegs rest1 := renderSegs_no_lt rest1 hrestWf
            have hrs : renderSegs (Seg.lit s :: Seg.ph alt :: rest1) =
                s ++ (phText alt ++ renderSegs rest1) := by
              rw [renderSegs_cons, renderSegs_cons]
              rfl
            rw [hrs, replaceStep_at_ph pn dn done s alt rest1 m hbs hWs.1
              hWa.1 hlt]
            have hres := blockSafe_resolvedText alt m pn dn hWa.1 hWa.2.1
              hmWf.1.1 hmWf.2.1 hdnW.1 (mf_relPath dn m hdnW.2.2.2.2 hmWf.1.2.2.2.2)
            have hmfres := mf_resolvedText alt m pn dn hWa.2.2.2
              hmWf.1.2.2.2.2 hmWf.2.2.2.2.2 hdnW.2.2.2.2
            have hdone' : done ++ (s ++ (resolvedText alt m pn dn ++ renderSegs rest1)) =
                (done ++ (s ++ resolvedText alt m pn dn)) ++ renderSegs rest1 := by
              simp [List.append_assoc]
            rw [hdone']
            have hsres : MF (s ++ resolvedText alt m pn dn) :=
              mf_append s _ hWs.2.2 hmfres
                (.inr (head_sep_const _ '!' (resolvedText_head alt m pn dn) (by decide)))
            rw [ih rest1 (done ++ (s ++ resolvedText alt m pn dn)) himgs' hrestWf
              hchain.tail.tail
              (blockSafe_append done _ hbs
                (blockSafe_append_noBang s _ (fun c hc heq => hWs.1 (heq ▸ hc)) hres))
              (by
                rcases hlast with h | h
                · rw [h, List.nil_append]
                  exact hsres
                · exact mf_append done _ hmf hsres
                    (.inl (last_sep_const _ '>' h (by decide))))
              (.inr (by
                rw [List.getLast?_append_of_ne_nil done (fun hnil =>
                  resolvedText_ne_nil alt m pn dn (List.append_eq_nil.mp hnil).2)]
                rw [List.getLast?_append_of_ne_nil s (resolvedText_ne_nil alt m pn dn)]
                exact resolvedText_getLast alt m pn dn))]
            show (done ++ (s ++ resolvedText alt m pn dn)) ++
                renderResolved pn dn rest1 ms =
              done ++ renderResolved pn dn (Seg.lit s :: Seg.ph alt :: rest1) (m :: ms)
            rw [show renderResolved pn dn (Seg.lit s :: Seg.ph alt :: rest1) (m :: ms) =
              s ++ (resolvedText alt m pn dn ++ renderResolved pn dn rest1 ms) from rfl]
            simp [List.append_assoc]

/-! ## Claim C2: reconciliation is positional and deterministic -/

/-- **C2** (confirmed).  For a page text with `P` placeholder references
(rendered from well-formed segments: literal text never contains `!`, `<`
or a stray literal marker, alt texts never contain `]`, `!`, `<` or the
marker, adjacent literals merged) and any list of `G` well-formed extracted
graphics, `_replace_image_placeholders_single_page` rewrites the text to
exactly the positional resolution `renderResolved`: the Nth placeholder in
text order is paired with the Nth graphic in extraction order, exactly
`min(P, G)` placeholders are resolved (second conjunct), every excess
placeholder keeps its literal `IMAGE_PLACEHOLDER` marker (visible in the
`renderResolved` equations), excess graphics leave the text unchanged, and
no exception is raised (the function is total).  Determinism across repeated
runs is definitional: the embedded function is pure, so equal inputs give
equal outputs. -/
theorem C2_positional_reconciliation (segs : List Seg) (imgs : List ImgMeta)
    (pn : Nat) (dn : List Char) (hsegs : ∀ s ∈ segs, WfSeg s)
    (hnorm : List.Chain' SegSep segs) (himgs : ∀ m ∈ imgs, WfMeta m)
    (hdn : WfName dn) :
    replace_image_placeholders_single_page (renderSegs segs) imgs pn (some dn) =
      renderResolved pn dn segs imgs ∧
    numResolved segs imgs = min (phCount segs) imgs.length := by
  refine ⟨?_, numResolved_eq_min segs imgs⟩
  show (if imgs.isEmpty then renderSegs segs
    else List.foldl (replaceStep pn dn) (renderSegs segs) imgs) =
    renderResolved pn dn segs imgs
  by_cases he : imgs.isEmpty
  · rw [if_pos he]
    obtain rfl : imgs = [] := List.isEmpty_iff.mp he
    rw [renderResolved_nil_imgs]
  · rw [if_neg he]
    have hmain := foldl_replaceStep_spec pn dn hdn imgs segs [] himgs hsegs hnorm
      blockSafe_nil mf_nil (.inl rfl)
    simpa using hmain

/-- Witness for C2: the concrete two-placeholder/one-graphic page. -/
theorem C2_positional_reconciliation_witness :
    replace_image_placeholders_single_page (renderSegs C2segs) C2imgs 3
      (some "doc_images".toList) = renderResolved 3 "doc_images".toList C2segs C2imgs ∧
    numResolved C2segs C2imgs = min (phCount C2segs) C2imgs.length :=
  C2_positional_reconciliation C2segs C2imgs 3 "doc_images".toList
    (by decide) (by unfold C2segs; repeat constructor) (by decide) (by decide)

/-! ## Capturing a model-authored comment (claim C7) -/

theorem wsSplit_append_left (x : List Char) (hne : (wsSplit x).2 ≠ []) :
    ∀ t, wsSplit (x ++ t) = ((wsSplit x).1, (wsSplit x).2 ++ t) := by
  induction x with
  | nil => exact absurd rfl hne
  | cons c x ih =>
    intro t
    by_cases hc : isWs c
    · have hx : (wsSplit (c :: x)).2 = (wsSplit x).2 := by simp [wsSplit, hc]
      rw [hx] at hne
      have hrec := ih hne t
      rw [List.cons_append]
      simp [wsSplit, hc, hrec]
    · simp [wsSplit, hc]

theorem dropPrefixQ_none_extend : ∀ (p r : List Char), p.length ≤ r.length →
    dropPrefixQ p r = none → ∀ t, dropPrefixQ p (r ++ t) = none := by
  intro p
  induction p with
  | nil => intro r _ h; cases h
  | cons p0 ps ih =>
    intro r hlen hnone t
    cases r with
    | nil => simp at hlen
    | cons c r =>
      simp only [dropPrefixQ, List.cons_append] at hnone ⊢
      by_cases hc : c = p0
      · rw [if_pos hc] at hnone ⊢
        exact ih r (by simpa using hlen) hnone t
      · rw [if_neg hc]

theorem wsSplit_arrow_len : ∀ c : List Char,
    3 ≤ ((wsSplit (c ++ " -->".toList)).2).length := by
  intro c
  induction c with
  | nil => decide
  | cons d c ih =>
    by_cases hd : isWs d
    · rw [List.cons_append]
      simpa [wsSplit, hd] using ih
    · rw [List.cons_append]
      simp [wsSplit, hd]

theorem scanContent_extend : ∀ (c : List Char),
    scanContent (c ++ " -->".toList) = some (c, c ++ " -->".toList, []) →
    ∀ post, scanContent (c ++ " -->".toList ++ post) =
      some (c, c ++ " -->".toList, post) := by
  intro c
  induction c with
  | nil => intro _ post; rfl
  | cons d c ih =>
    intro hsc post
    have hsc' : scanContent (d :: (c ++ " -->".toList)) =
        some (d :: c, d :: (c ++ " -->".toList), []) := hsc
    have hlen : 3 ≤ ((wsSplit (d :: (c ++ " -->".toList))).2).length :=
      wsSplit_arrow_len (d :: c)
    have hne : (wsSplit (d :: (c ++ " -->".toList))).2 ≠ [] := by
      intro h
      rw [h] at hlen
      simp at hlen
    have hck : dropPrefixQ "-->".toList (wsSplit (d :: (c ++ " -->".toList))).2 =
        none := by
      cases hc : dropPrefixQ "-->".toList (wsSplit (d :: (c ++ " -->".toList))).2 with
      | none => rfl
      | some rest =>
        simp only [scanContent, hc] at hsc'
        exact absurd hsc' (by simp)
    have hdnl : ¬ d = '\n' := by
      intro hd
      simp only [scanContent, hck, if_pos hd] at hsc'
      cases hsc'
    have hprev : scanContent (c ++ " -->".toList) =
        some (c, c ++ " -->".toList, []) := by
      simp only [scanContent, hck, if_neg hdnl] at hsc'
      cases hrec : scanContent (c ++ " -->".toList) with
      | none => rw [hrec] at hsc'; cases hsc'
      | some pr =>
        obtain ⟨p1, p2, p3⟩ := pr
        rw [hrec] at hsc'
        simp at hsc'
        obtain ⟨h1, h2, h3⟩ := hsc'
        rw [h1, h2, h3]
        rfl
    have hw : wsSplit (d :: ((c ++ " -->".toList) ++ post)) =
        ((wsSplit (d :: (c ++ " -->".toList))).1,
         (wsSplit (d :: (c ++ " -->".toList))).2 ++ post) :=
      wsSplit_append_left ((d :: c) ++ " -->".toList) hne post
    have hckp : dropPrefixQ "-->".toList
        ((wsSplit (d :: (c ++ " -->".toList))).2 ++ post) = none :=
      dropPrefixQ_none_extend "-->".toList _ (by simpa using hlen) hck post
    show scanContent (d :: ((c ++ " -->".toList) ++ post)) =
      some (d :: c, d :: (c ++ " -->".toList), post)
    simp only [scanContent, hw, hckp, if_neg hdnl, ih hprev post]
    rfl

theorem probeComment_comment (h0 : Char) (ct post : List Char)
    (hh : isWs h0 = false)
    (hsc : scanContent ((h0 :: ct) ++ " -->".toList) =
      some (h0 :: ct, (h0 :: ct) ++ " -->".toList, [])) :
    probeComment (commentRaw (h0 :: ct) ++ post) =
      some (h0 :: ct, commentRaw (h0 :: ct), post) := by
  have hsc2 : scanContent (h0 :: ((ct ++ " -->".toList) ++ post)) =
      some (h0 :: ct, h0 :: (ct ++ " -->".toList), post) :=
    scanContent_extend (h0 :: ct) hsc post
  have hw1 : wsSplit ('\n' :: '<' :: '!' :: '-' :: '-' :: ' ' :: h0 ::
      ((ct ++ " -->".toList) ++ post)) =
      (['\n'], '<' :: '!' :: '-' :: '-' :: ' ' :: h0 ::
        ((ct ++ " -->".toList) ++ post)) := rfl
  have hd1 : dropPrefixQ "<!--".toList ('<' :: '!' :: '-' :: '-' :: ' ' :: h0 ::
      ((ct ++ " -->".toList) ++ post)) =
      some (' ' :: h0 :: ((ct ++ " -->".toList) ++ post)) := rfl
  have hw2 : wsSplit (' ' :: h0 :: ((ct ++ " -->".toList) ++ post)) =
      ([' '], h0 :: ((ct ++ " -->".toList) ++ post)) := by
    simp [wsSplit, hh, show isWs ' ' = true from rfl]
  show probeComment ('\n' :: '<' :: '!' :: '-' :: '-' :: ' ' :: h0 ::
      ((ct ++ " -->".toList) ++ post)) = _
  simp only [probeComment, hw1, hd1, hw2, hsc2]
  rfl

theorem matchAt_comment (alt : List Char) (h0 : Char) (ct post : List Char)
    (h1 : ']' ∉ alt) (hh : isWs h0 = false)
    (hsc : scanContent ((h0 :: ct) ++ " -->".toList) =
      some (h0 :: ct, (h0 :: ct) ++ " -->".toList, [])) :
    matchAt (phText alt ++ (commentRaw (h0 :: ct) ++ post)) =
      some ⟨alt, some (h0 :: ct), phText alt ++ commentRaw (h0 :: ct), post⟩ := by
  have hsh : phText alt ++ (commentRaw (h0 :: ct) ++ post) =
      "![".toList ++ (alt ++ ']' ::
        ("(IMAGE_PLACEHOLDER)".toList ++ (commentRaw (h0 :: ct) ++ post))) := by
    simp [phText, List.append_assoc]
  rw [hsh]
  simp only [matchAt, dropPrefixQ_self, splitAtRB_spec alt h1,
    probeComment_comment h0 ct post hh hsc]

theorem searchFrom_comment (alt : List Char) (h0 : Char) (ct post : List Char)
    (h1 : ']' ∉ alt) (hh : isWs h0 = false)
    (hsc : scanContent ((h0 :: ct) ++ " -->".toList) =
      some (h0 :: ct, (h0 :: ct) ++ " -->".toList, [])) :
    searchFrom (phText alt ++ (commentRaw (h0 :: ct) ++ post)) =
      some ⟨alt, some (h0 :: ct), phText alt ++ commentRaw (h0 :: ct), post⟩ := by
  have hm := matchAt_comment alt h0 ct post h1 hh hsc
  obtain ⟨tl, htl⟩ : ∃ tl, phText alt ++ (commentRaw (h0 :: ct) ++ post) = '!' :: tl :=
    ⟨'[' :: (alt ++ ("](IMAGE_PLACEHOLDER)".toList ++ (commentRaw (h0 :: ct) ++ post))),
      by simp [phText, List.append_assoc]⟩
  rw [htl] at hm ⊢
  conv_lhs => rw [searchFrom]
  rw [hm]

theorem replaceOnce_at_head_bang (pre g new post : List Char) (hpre : '!' ∉ pre)
    (hghead : g.head? = some '!') :
    replaceOnce (pre ++ (g ++ post)) g new = pre ++ (new ++ post) := by
  obtain ⟨gt, hg⟩ : ∃ gt, g = '!' :: gt := by
    cases g with
    | nil => cases hghead
    | cons a gt =>
      rw [List.head?_cons, Option.some.injEq] at hghead
      exact ⟨gt, by rw [hghead]⟩
  subst hg
  refine replaceOnce_append_spec ('!' :: gt) new post (by simp) pre ?_
  intro x y hxy hy
  cases y with
  | nil => exact absurd rfl hy
  | cons yc ys =>
    have hyc : yc ∈ pre := by
      rw [hxy]
      exact List.mem_append_right _ (List.mem_cons_self yc ys)
    have hne : ¬ yc = '!' := fun h => hpre (h ▸ hyc)
    simp [dropPrefixQ, List.cons_append, hne]

/-- C7: for a matched placeholder-graphic pair, reconciliation rewrites the
placeholder's target reference to the graphic's relative file path
(images_dirname/filename) and attaches a metadata annotation consisting of
the filename, the width x height in pixels, the size in kilobytes with one
decimal place, the format, and the page number; when the text already
carries a model-authored description comment, the metadata is appended to
that comment (after a newline) rather than replacing it. -/
theorem C7_matched_pair_rewrite (pre alt : List Char) (c? : Option (List Char))
    (post : List Char) (m : ImgMeta) (pn : Nat) (dn : List Char)
    (hpre : '!' ∉ pre) (halt : ']' ∉ alt) (hc : CommentOk c? post) :
    replace_image_placeholders_single_page
        (pre ++ (phText alt ++ (commentRawOpt c? ++ post))) [m] pn (some dn) =
      pre ++ "![".toList ++ alt ++ "](".toList ++ dn ++ "/".toList ++ m.filename ++
        ")".toList ++ "\n<!-- ".toList ++ commentLead c? ++
        "File: ".toList ++ m.filename ++ " | Dimensions: ".toList ++
        natChars m.width ++ "x".toList ++ natChars m.height ++
        "px | Size: ".toList ++ fmtKB m.size ++ "KB | Format: ".toList ++
        m.format ++ " | Page: ".toList ++ natChars pn ++ " -->".toList ++ post := by
  have hstep : replace_image_placeholders_single_page
      (pre ++ (phText alt ++ (commentRawOpt c? ++ post))) [m] pn (some dn) =
      replaceStep pn dn (pre ++ (phText alt ++ (commentRawOpt c? ++ post))) m := rfl
  rw [hstep]
  unfold replaceStep
  cases c? with
  | none =>
    have hpost : '<' ∉ post := hc
    have htext : pre ++ (phText alt ++ (commentRawOpt none ++ post)) =
        pre ++ (phText alt ++ post) := by simp [commentRawOpt]
    rw [htext]
    rw [searchFrom_append_blockSafe pre
        (blockSafe_noBang pre fun ch hch heq => hpre (heq ▸ hch)),
      searchFrom_ph alt post halt hpost]
    show replaceOnce (pre ++ (phText alt ++ post)) (phText alt)
        (mkReplacement ⟨alt, none, phText alt, post⟩ m pn dn) = _
    rw [replaceOnce_at_head_bang pre (phText alt) _ post hpre
      (by rw [phText_cons]; rfl)]
    simp [mkReplacement, relPath, metadataText, commentLead, List.append_assoc]
  | some c =>
    obtain ⟨hcne, hhead, hscan⟩ := hc
    obtain ⟨h0, ct, hc0⟩ : ∃ h0 ct, c = h0 :: ct := by
      cases c with
      | nil => exact absurd rfl hcne
      | cons h0 ct => exact ⟨h0, ct, rfl⟩
    subst hc0
    have hh : isWs h0 = false := hhead
    rw [show commentRawOpt (some (h0 :: ct)) = commentRaw (h0 :: ct) from rfl]
    rw [searchFrom_append_blockSafe pre
        (blockSafe_noBang pre fun ch hch heq => hpre (heq ▸ hch)),
      searchFrom_comment alt h0 ct post halt hh hscan]
    show replaceOnce (pre ++ (phText alt ++ (commentRaw (h0 :: ct) ++ post)))
        (phText alt ++ commentRaw (h0 :: ct))
        (mkReplacement ⟨alt, some (h0 :: ct), phText alt ++ commentRaw (h0 :: ct), post⟩
          m pn dn) = _
    rw [show pre ++ (phText alt ++ (commentRaw (h0 :: ct) ++ post)) =
        pre ++ ((phText alt ++ commentRaw (h0 :: ct)) ++ post) from by
          rw [List.append_assoc]]
    rw [replaceOnce_at_head_bang pre _ _ post hpre (by rw [phText_cons]; rfl)]
    simp [mkReplacement, relPath, metadataText, commentRaw, commentLead,
      List.append_assoc]

/-- Witness for C7: a concrete page text with a commented placeholder. -/
theorem C7_matched_pair_rewrite_witness :
    replace_image_placeholders_single_page
        ("Intro ".toList ++ (phText "Fig 1".toList ++
          (commentRawOpt (some "A chart".toList) ++ " end.".toList)))
        [⟨"page_003_img_001.png".toList, "tmp/images/page_003_img_001.png".toList,
          200, 150, 2048, "png".toList, 3, 1⟩] 3 (some "doc_images".toList) =
      "Intro ".toList ++ "![".toList ++ "Fig 1".toList ++ "](".toList ++
        "doc_images".toList ++ "/".toList ++ "page_003_img_001.png".toList ++
        ")".toList ++ "\n<!-- ".toList ++ commentLead (some "A chart".toList) ++
        "File: ".toList ++ "page_003_img_001.png".toList ++ " | Dimensions: ".toList ++
        natChars 200 ++ "x".toList ++ natChars 150 ++
        "px | Size: ".toList ++ fmtKB 2048 ++ "KB | Format: ".toList ++
        "png".toList ++ " | Page: ".toList ++ natChars 3 ++ " -->".toList ++
        " end.".toList :=
  C7_matched_pair_rewrite "Intro ".toList "Fig 1".toList (some "A chart".toList) " end.".toList
    ⟨"page_003_img_001.png".toList, "tmp/images/page_003_img_001.png".toList,
      200, 150, 2048, "png".toList, 3, 1⟩ 3 "doc_images".toList
    (by decide) (by decide) (by exact ⟨by decide, by decide, by decide⟩)

set_option maxRecDepth 8192 in
/-- Counterexample to C7 as stated: the source pattern is compiled without
`re.DOTALL`, so its lazy comment group cannot match across a newline.  For a
multi-line model-authored description comment - the very format the system
prompt in config.py mandates - group 2 is `None`, and the code inserts a
separate metadata comment between the rewritten link and the untouched old
comment instead of appending the metadata to that comment.  The first
conjunct is the actual output (metadata in its own comment, the original
comment left in place after it); the second shows it differs from the
appended form the claim asserts. -/
theorem C7_counterexample :
    replace_image_placeholders_single_page
        "Intro ![Fig](IMAGE_PLACEHOLDER)\n<!-- Desc\nType: chart --> end.".toList
        [⟨"page_003_img_001.png".toList, "tmp/images/page_003_img_001.png".toList,
          200, 150, 2048, "png".toList, 3, 1⟩] 3 (some "doc_images".toList) =
      ("Intro ![Fig](doc_images/page_003_img_001.png)\n<!-- File: page_003_img_001.png | Dimensions: 200x150px | Size: 2.0KB | Format: png | Page: 3 -->\n<!-- Desc\nType: chart --> end.").toList
    ∧
    replace_image_placeholders_single_page
        "Intro ![Fig](IMAGE_PLACEHOLDER)\n<!-- Desc\nType: chart --> end.".toList
        [⟨"page_003_img_001.png".toList, "tmp/images/page_003_img_001.png".toList,
          200, 150, 2048, "png".toList, 3, 1⟩] 3 (some "doc_images".toList) ≠
      ("Intro ![Fig](doc_images/page_003_img_001.png)\n<!-- Desc\nType: chart\nFile: page_003_img_001.png | Dimensions: 200x150px | Size: 2.0KB | Format: png | Page: 3 --> end.").toList := by
  constructor
  · decide
  · decide
